import Mathlib

set_option maxRecDepth 8000

/-!
Verification of the RFC 8785 JSON canonicalization codec in
`packages/sdk/src/canonicalize.ts` (Keon SDK).

The embedding models JavaScript strings as lists of UTF-16 code units
(`List Nat`), JavaScript numbers as a tagged type distinguishing NaN, the two
infinities, the two zeroes and finite nonzero values written in normalized
decimal scientific form, and JavaScript values as a mutual inductive mirroring
the six-case value model of the source plus `undefined`, functions and symbols
(the inputs the source's `typeof` dispatch can see).

Platform builtins used by the source (`String.prototype.normalize('NFC')`,
`Number.prototype.toString`, `JSON.parse`, `TextEncoder`/`TextDecoder`,
`Array.prototype.sort`) are modelled explicitly below; each model carries a
comment saying what it stands for and on which inputs it is exercised by the
theorems.
-/

/-- JavaScript strings: sequences of UTF-16 code units. -/
abbrev JSString := List Nat

/-- Code units of an ASCII/BMP Lean string literal, used to write examples. -/
def cu (s : String) : List Nat := s.data.map Char.toNat

/-! ## Model of `String.prototype.normalize('NFC')`

Canonical composition for the code points exercised in this development
(Latin letters with acute/grave accents).  All other code points are treated
as NFC-inert, which agrees with real NFC on every character appearing in the
theorems below.  The table maps (starter, combining mark) to the precomposed
character; composition results are never combining marks, which is what makes
the process idempotent. -/

/-- Composition table: `composePair base mark` is the precomposed character,
if any.  Marks are U+0301 (combining acute) and U+0300 (combining grave). -/
def composePair (base mark : Nat) : Option Nat :=
  if mark = 0x301 then
    if base = 0x65 then some 0xE9        -- é
    else if base = 0x45 then some 0xC9   -- É
    else if base = 0x61 then some 0xE1   -- á
    else if base = 0x41 then some 0xC1   -- Á
    else none
  else if mark = 0x300 then
    if base = 0x65 then some 0xE8        -- è
    else if base = 0x61 then some 0xE0   -- à
    else none
  else none

/-- Fuelled canonical-composition pass; the fuel is an upper bound on the
number of steps and `normalizeNFC` supplies the input length. -/
def nfcRun : Nat → List Nat → List Nat
  | 0, l => l
  | _ + 1, [] => []
  | _ + 1, [c] => [c]
  | fuel + 1, c1 :: c2 :: rest =>
    match composePair c1 c2 with
    | some c => nfcRun fuel (c :: rest)
    | none => c1 :: nfcRun fuel (c2 :: rest)

/-- Model of `s.normalize('NFC')`. -/
def normalizeNFC (s : JSString) : JSString := nfcRun s.length s

/-! ## Object key comparison and sort

The source sorts normalized keys with a comparator that walks the two strings
code unit by code unit and falls back to the length difference; `keyLe` is the
total order that comparator induces, and `sortKeys` is a sorting algorithm for
it (the comparator is a consistent total order, so `Array.prototype.sort` is
extensionally this function). -/

/-- Induced order of the source's key comparator: lexicographic on UTF-16 code
units, with a shorter string sorting before any extension of it. -/
def keyLe : List Nat → List Nat → Bool
  | [], _ => true
  | _ :: _, [] => false
  | x :: xs, y :: ys => if x < y then true else if y < x then false else keyLe xs ys

/-- Insert a key into a `keyLe`-sorted list. -/
def insertKey (x : List Nat) : List (List Nat) → List (List Nat)
  | [] => [x]
  | y :: ys => if keyLe x y then x :: y :: ys else y :: insertKey x ys

/-- Sort a list of keys by `keyLe` (model of `keys.sort(comparator)`). -/
def sortKeys : List (List Nat) → List (List Nat)
  | [] => []
  | x :: xs => insertKey x (sortKeys xs)

/-! ## String canonicalization (`canonicalizeString`) -/

/-- Lower-case hexadecimal digit character for `n < 16`. -/
def hexDigit (n : Nat) : Nat := if n < 10 then 0x30 + n else 0x57 + n

/-- Model of `code.toString(16).padStart(4, '0')` for `code < 0x10000`. -/
def toHexPad4 (c : Nat) : List Nat :=
  [hexDigit (c / 4096 % 16), hexDigit (c / 256 % 16), hexDigit (c / 16 % 16), hexDigit (c % 16)]

/-- Escape of one code unit, following the source's `switch`: the two special
ASCII characters, the five named control escapes, `\u00XX` for the remaining
control characters, and the character itself otherwise.  (The source iterates
by code point; surrogate halves are `≥ 0x20` and are appended verbatim, so the
emitted code-unit sequence is the same as this per-unit walk.) -/
def escapeUnit (c : Nat) : List Nat :=
  if c = 0x22 then [0x5C, 0x22]            -- \"
  else if c = 0x5C then [0x5C, 0x5C]       -- backslash
  else if c = 0x08 then [0x5C, 0x62]       -- \b
  else if c = 0x0C then [0x5C, 0x66]       -- \f
  else if c = 0x0A then [0x5C, 0x6E]       -- \n
  else if c = 0x0D then [0x5C, 0x72]       -- \r
  else if c = 0x09 then [0x5C, 0x74]       -- \t
  else if c < 0x20 then [0x5C, 0x75] ++ toHexPad4 c
  else [c]

/-- Model of the source's `canonicalizeString`: NFC-normalize, then fold the
escape of each character onto a result string that starts and ends with a
double quote. -/
def canonicalizeString (str : JSString) : List Nat :=
  let normalized := normalizeNFC str
  let result := normalized.foldl (fun acc c => acc ++ escapeUnit c) [0x22]
  result ++ [0x22]

/-! ## Number model

A JavaScript number is an IEEE-754 double.  The model distinguishes NaN, the
infinities, the two zeroes, and finite nonzero values written as
`±(d × 10^e)`.  A real double's representative has `d ≠ 0` and `10 ∤ d`
(its shortest-decimal digits); the operations below normalize their inputs, so
they are total on the whole type. -/

inductive JSNumber : Type where
  | nan : JSNumber
  | posInf : JSNumber
  | negInf : JSNumber
  | zero : JSNumber
  | negZero : JSNumber
  | finite : Bool → Nat → Int → JSNumber
  deriving DecidableEq

/-- Model of `Number.isFinite`. -/
def numIsFinite : JSNumber → Bool
  | .nan | .posInf | .negInf => false
  | _ => true

/-- Model of `Object.is(num, -0)`. -/
def numIsNegZero : JSNumber → Bool
  | .negZero => true
  | .finite neg d _ => neg && d == 0
  | _ => false

/-- Model of `Number.isInteger`: the value is a mathematical integer. -/
def numIsInteger : JSNumber → Bool
  | .zero | .negZero => true
  | .finite _ d e => 0 ≤ e || d % (10 ^ (-e).toNat) == 0
  | _ => false

/-- Whether `|num| ≤ M`, exercised as `Math.abs(num) <= Number.MAX_SAFE_INTEGER`. -/
def numAbsLe (n : JSNumber) (M : Nat) : Bool :=
  match n with
  | .zero | .negZero => true
  | .finite _ d e =>
    if 0 ≤ e then decide (d * 10 ^ e.toNat ≤ M) else decide (d ≤ M * 10 ^ (-e).toNat)
  | _ => false

def maxSafeInteger : Nat := 2 ^ 53 - 1

/-- Model of `Number.isSafeInteger`. -/
def numIsSafeInteger (n : JSNumber) : Bool := numIsInteger n && numAbsLe n maxSafeInteger

/-- Strip factors of ten: `stripZeros fuel d = (d', k)` with `d = d' * 10^k`
and (for `fuel ≥ d ≠ 0`) `10 ∤ d'`. -/
def stripZeros : Nat → Nat → Nat × Nat
  | 0, d => (d, 0)
  | fuel + 1, d =>
    if d ≠ 0 && d % 10 == 0 then
      let p := stripZeros fuel (d / 10)
      (p.1, p.2 + 1)
    else (d, 0)

/-- Normalized representative of a number: finite zero collapses to a signed
zero and trailing decimal zeroes move into the exponent. -/
def normRep : JSNumber → JSNumber
  | .finite neg d e =>
    if d = 0 then (if neg then .negZero else .zero)
    else
      let p := stripZeros d d
      .finite neg p.1 (e + p.2)
  | n => n

/-- Model of strict equality `===` on numbers: NaN is unequal to everything
and the two zeroes are equal. -/
def numEqB (a b : JSNumber) : Bool :=
  match normRep a, normRep b with
  | .nan, _ => false
  | _, .nan => false
  | .zero, .zero => true
  | .zero, .negZero => true
  | .negZero, .zero => true
  | .negZero, .negZero => true
  | x, y => x == y

/-- Model of `Math.trunc`. -/
def truncN : JSNumber → JSNumber
  | .finite neg d e =>
    if 0 ≤ e then .finite neg d e
    else
      let q := d / 10 ^ (-e).toNat
      if q = 0 then (if neg then .negZero else .zero) else normRep (.finite neg q 0)
  | n => n

/-- Decimal digit characters of a natural number (fuelled helper). -/
def natDigitsAux : Nat → Nat → List Nat
  | 0, _ => []
  | fuel + 1, n => if n = 0 then [] else natDigitsAux fuel (n / 10) ++ [0x30 + n % 10]

/-- Decimal digit characters of a natural number; `natDigits 0 = "0"`. -/
def natDigits (n : Nat) : List Nat := if n = 0 then [0x30] else natDigitsAux n n

/-- Model of ECMA-262 `Number::toString` (radix 10) on a positive magnitude
whose shortest-decimal digits are `d` (with `10 ∤ d`, `d ≠ 0`) and whose value
is `d × 10^e`: writing `k` for the number of digits and `n = e + k`, the
output is plain digits for `k ≤ n ≤ 21`, a decimal fraction for `n ≤ 21`
otherwise positive, a `0.`-prefixed fraction for `-6 < n ≤ 0`, and scientific
notation with exponent `n - 1` otherwise. -/
def ecmaFormatMag (d : Nat) (e : Int) : List Nat :=
  let ds := natDigits d
  let k : Int := ds.length
  let n : Int := e + k
  if 0 ≤ e ∧ n ≤ 21 then ds ++ List.replicate e.toNat 0x30
  else if 0 < n ∧ n ≤ 21 then ds.take n.toNat ++ [0x2E] ++ ds.drop n.toNat
  else if -6 < n ∧ n ≤ 0 then [0x30, 0x2E] ++ List.replicate (-n).toNat 0x30 ++ ds
  else
    let ex := n - 1
    let expPart := [0x65] ++ (if ex < 0 then [0x2D] else [0x2B]) ++ natDigits ex.natAbs
    if ds.length = 1 then ds ++ expPart
    else ds.take 1 ++ [0x2E] ++ ds.drop 1 ++ expPart

/-- Model of `num.toString()` on the number model. -/
def numToString (n : JSNumber) : List Nat :=
  match normRep n with
  | .nan => cu "NaN"
  | .posInf => cu "Infinity"
  | .negInf => cu "-Infinity"
  | .zero => [0x30]
  | .negZero => [0x30]
  | .finite neg d e => (if neg then [0x2D] else []) ++ ecmaFormatMag d e

/-! ## Error kinds

The source throws plain `Error` objects; the spec's taxonomy names the kinds,
which is what the type distinguishes.  `unsupportedType` carries the `typeof`
tag interpolated into the source's message. -/

inductive CanonError : Type where
  | nonFiniteNumber : CanonError
  | unsupportedType : List Nat → CanonError
  | parseError : CanonError
  deriving DecidableEq

deriving instance DecidableEq for Except

/-- Model of the source's `canonicalizeNumber`, branch for branch. -/
def canonicalizeNumber (num : JSNumber) : Except CanonError (List Nat) :=
  if numIsFinite num = false then .error .nonFiniteNumber
  else if numIsNegZero num then .ok [0x30]
  else if numIsInteger num && numIsSafeInteger num then .ok (numToString num)
  else if numEqB (truncN num) num && numAbsLe num maxSafeInteger then
    .ok (numToString (truncN num))
  else .ok (numToString num)

/-! ## The value model

Mutual inductives stand for JavaScript values, arrays and objects (an object
is its key/value pairs in `Object.keys` enumeration order).  `fn` and `sym`
stand for values whose `typeof` is `"function"` and `"symbol"`, the inputs
that reach the source's `default` branch. -/

mutual
inductive JSValue : Type where
  | undef : JSValue
  | null : JSValue
  | bool : Bool → JSValue
  | num : JSNumber → JSValue
  | str : JSString → JSValue
  | arr : JSArr → JSValue
  | obj : JSObj → JSValue
  | fn : JSValue
  | sym : JSValue
  deriving DecidableEq
inductive JSArr : Type where
  | nil : JSArr
  | cons : JSValue → JSArr → JSArr
  deriving DecidableEq
inductive JSObj : Type where
  | nil : JSObj
  | cons : JSString → JSValue → JSObj → JSObj
  deriving DecidableEq
end

def JSArr.toList : JSArr → List JSValue
  | .nil => []
  | .cons v rest => v :: rest.toList

def JSObj.toList : JSObj → List (JSString × JSValue)
  | .nil => []
  | .cons k v rest => (k, v) :: rest.toList

def jarr : List JSValue → JSArr
  | [] => .nil
  | v :: vs => .cons v (jarr vs)

def jobj : List (JSString × JSValue) → JSObj
  | [] => .nil
  | (k, v) :: rest => .cons k v (jobj rest)

/-- Join rendered pieces with commas (model of `join(',')`). -/
def joinComma : List (List Nat) → List Nat
  | [] => []
  | [x] => x
  | x :: xs => x ++ [0x2C] ++ joinComma xs

/-- Model of the body of the source's `canonicalizeObject`, taking the
already-computed `(original key, canonicalization of its value)` list in
enumeration order: normalize the keys, sort them, and for each sorted key
re-scan the original keys (`find`) for the first whose normalization matches,
emitting that entry's value.  When `find` misses (unreachable in practice) the
source reads `obj[undefined]`, i.e. the value `undefined`, which canonicalizes
to `null`.  `renderPairs` is the part after the sort: one `key:value` text per
sorted key, joined with commas inside braces. -/
def renderPairs (entries : List (JSString × Except CanonError (List Nat)))
    (ks : List JSString) : Except CanonError (List Nat) :=
  match ks.mapM (fun key =>
    match entries.find? (fun p => normalizeNFC p.1 == key) with
    | some p => p.2.map (fun s => canonicalizeString key ++ [0x3A] ++ s)
    | none => .ok (canonicalizeString key ++ [0x3A] ++ cu "null")) with
  | .ok pairs => .ok ([0x7B] ++ joinComma pairs ++ [0x7D])
  | .error e => .error e

def canonicalizeObjectFromEntries
    (entries : List (JSString × Except CanonError (List Nat))) :
    Except CanonError (List Nat) :=
  renderPairs entries (sortKeys ((entries.map Prod.fst).map normalizeNFC))

mutual
/-- Model of the source's `canonicalizeValue` dispatch: `null` and
`undefined` render as `null`, then `typeof` selects booleans, numbers,
strings, arrays and objects, and every other tag throws `Unsupported type`. -/
def canonicalizeValue : JSValue → Except CanonError (List Nat)
  | .null => .ok (cu "null")
  | .undef => .ok (cu "null")
  | .bool b => .ok (if b then cu "true" else cu "false")
  | .num n => canonicalizeNumber n
  | .str s => .ok (canonicalizeString s)
  | .arr xs =>
    match canonicalizeArrayElems xs with
    | .ok elems => .ok ([0x5B] ++ joinComma elems ++ [0x5D])
    | .error e => .error e
  | .obj o => canonicalizeObjectFromEntries (canonicalizeObjEntries o)
  | .fn => .error (.unsupportedType (cu "function"))
  | .sym => .error (.unsupportedType (cu "symbol"))
/-- Element-wise canonicalization of an array (model of `arr.map(canonicalizeValue)`
with error propagation). -/
def canonicalizeArrayElems : JSArr → Except CanonError (List (List Nat))
  | .nil => .ok []
  | .cons v rest =>
    match canonicalizeValue v, canonicalizeArrayElems rest with
    | .ok s, .ok ss => .ok (s :: ss)
    | .error e, _ => .error e
    | _, .error e => .error e
/-- The `(original key, canonicalization of the value)` pairs of an object in
enumeration order.  The canonicalization of a shadowed entry is never selected
by `canonicalizeObjectFromEntries`, matching the source, which canonicalizes
only the values its `find` re-scan reaches. -/
def canonicalizeObjEntries : JSObj → List (JSString × Except CanonError (List Nat))
  | .nil => []
  | .cons k v rest => (k, canonicalizeValue v) :: canonicalizeObjEntries rest
end

/-- Model of the source's `canonicalizeArray`. -/
def canonicalizeArray (arr : JSArr) : Except CanonError (List Nat) :=
  match canonicalizeArrayElems arr with
  | .ok elems => .ok ([0x5B] ++ joinComma elems ++ [0x5D])
  | .error e => .error e

/-- Model of the source's `canonicalizeObject`. -/
def canonicalizeObject (obj : JSObj) : Except CanonError (List Nat) :=
  canonicalizeObjectFromEntries (canonicalizeObjEntries obj)

/-! ## UTF-8 encoding and decoding (`TextEncoder` / `TextDecoder`) -/

/-- UTF-8 bytes of one Unicode scalar value. -/
def utf8EncodeScalar (c : Nat) : List Nat :=
  if c < 0x80 then [c]
  else if c < 0x800 then [0xC0 + c / 64, 0x80 + c % 64]
  else if c < 0x10000 then [0xE0 + c / 4096, 0x80 + c / 64 % 64, 0x80 + c % 64]
  else [0xF0 + c / 262144, 0x80 + c / 4096 % 64, 0x80 + c / 64 % 64, 0x80 + c % 64]

/-- Model of `new TextEncoder().encode` on a UTF-16 code-unit sequence:
surrogate pairs encode as one four-byte scalar and unpaired surrogates encode
as U+FFFD. -/
def utf8Encode : List Nat → List Nat
  | [] => []
  | [c] =>
    if 0xD800 ≤ c ∧ c < 0xE000 then utf8EncodeScalar 0xFFFD else utf8EncodeScalar c
  | c :: c2 :: rest =>
    if 0xD800 ≤ c ∧ c < 0xDC00 then
      if 0xDC00 ≤ c2 ∧ c2 < 0xE000 then
        utf8EncodeScalar (0x10000 + (c - 0xD800) * 0x400 + (c2 - 0xDC00)) ++ utf8Encode rest
      else utf8EncodeScalar 0xFFFD ++ utf8Encode (c2 :: rest)
    else if 0xDC00 ≤ c ∧ c < 0xE000 then utf8EncodeScalar 0xFFFD ++ utf8Encode (c2 :: rest)
    else utf8EncodeScalar c ++ utf8Encode (c2 :: rest)

/-- Whether a byte is a UTF-8 continuation byte. -/
def isCont (b : Nat) : Bool := 0x80 ≤ b && b < 0xC0

/-- UTF-16 code units of one scalar value (a surrogate pair above U+FFFF). -/
def unitsOfScalar (c : Nat) : List Nat :=
  if c < 0x10000 then [c]
  else [0xD800 + (c - 0x10000) / 0x400, 0xDC00 + (c - 0x10000) % 0x400]

/-- Fuelled model of `new TextDecoder().decode`: well-formed UTF-8 sequences
decode to their scalar's code units and malformed bytes to U+FFFD.  The fuel
(one step per decoded scalar) is supplied by `utf8Decode` as the byte count. -/
def utf8DecodeF : Nat → List Nat → List Nat
  | 0, _ => []
  | _ + 1, [] => []
  | fuel + 1, b1 :: rest =>
    if b1 < 0x80 then b1 :: utf8DecodeF fuel rest
    else if b1 < 0xC2 then 0xFFFD :: utf8DecodeF fuel rest
    else if b1 < 0xE0 then
      match rest with
      | b2 :: rest2 =>
        if isCont b2 then ((b1 - 0xC0) * 64 + (b2 - 0x80)) :: utf8DecodeF fuel rest2
        else 0xFFFD :: utf8DecodeF fuel rest
      | [] => [0xFFFD]
    else if b1 < 0xF0 then
      match rest with
      | b2 :: b3 :: rest3 =>
        if isCont b2 && isCont b3 then
          let c := (b1 - 0xE0) * 4096 + (b2 - 0x80) * 64 + (b3 - 0x80)
          if 0x800 ≤ c ∧ ¬(0xD800 ≤ c ∧ c < 0xE000) then c :: utf8DecodeF fuel rest3
          else 0xFFFD :: utf8DecodeF fuel rest
        else 0xFFFD :: utf8DecodeF fuel rest
      | _ => [0xFFFD]
    else if b1 < 0xF5 then
      match rest with
      | b2 :: b3 :: b4 :: rest4 =>
        if isCont b2 && isCont b3 && isCont b4 then
          let c := (b1 - 0xF0) * 262144 + (b2 - 0x80) * 4096 + (b3 - 0x80) * 64 + (b4 - 0x80)
          if 0x10000 ≤ c ∧ c < 0x110000 then
            unitsOfScalar c ++ utf8DecodeF fuel rest4
          else 0xFFFD :: utf8DecodeF fuel rest
        else 0xFFFD :: utf8DecodeF fuel rest
      | _ => [0xFFFD]
    else 0xFFFD :: utf8DecodeF fuel rest

/-- Model of `new TextDecoder().decode`. -/
def utf8Decode (bytes : List Nat) : List Nat := utf8DecodeF bytes.length bytes

/-- Number of scalars `utf8Encode` emits (one decoder step each). -/
def scalarSteps : List Nat → Nat
  | [] => 0
  | [_] => 1
  | c :: c2 :: rest =>
    if (0xD800 ≤ c ∧ c < 0xDC00) ∧ (0xDC00 ≤ c2 ∧ c2 < 0xE000) then 1 + scalarSteps rest
    else 1 + scalarSteps (c2 :: rest)

/-! ## Entry points -/

/-- Model of the exported `canonicalizeToString`. -/
def canonicalizeToString (value : JSValue) : Except CanonError (List Nat) :=
  canonicalizeValue value

/-- Model of the exported `canonicalize`: canonical string, UTF-8 encoded. -/
def canonicalize (value : JSValue) : Except CanonError (List Nat) :=
  (canonicalizeToString value).map utf8Encode

/-! ## Model of `JSON.parse`

Recursive-descent reading of the JSON grammar over a code-unit sequence.
Number literals are read exactly into the decimal number model and then
normalized; on shortest-form literals (in particular on everything this
codec emits) this coincides with the double produced by the platform's
`JSON.parse`.  The fuel decreases on every mutual call; `jsonParse` passes
the input length plus one, which the round-trip theorems show is enough for
every canonical text. -/

def isDigit (c : Nat) : Bool := 0x30 ≤ c && c ≤ 0x39

def isWs (c : Nat) : Bool := c == 0x20 || c == 0x09 || c == 0x0A || c == 0x0D

def skipWs : List Nat → List Nat
  | [] => []
  | c :: rest => if isWs c then skipWs rest else c :: rest

def takeDigits : List Nat → List Nat × List Nat
  | [] => ([], [])
  | c :: rest =>
    if isDigit c then
      let p := takeDigits rest
      (c :: p.1, p.2)
    else ([], c :: rest)

def digitVal (c : Nat) : Nat := c - 0x30

def foldDigits (ds : List Nat) : Nat := ds.foldl (fun acc c => acc * 10 + digitVal c) 0

def hexVal (c : Nat) : Option Nat :=
  if 0x30 ≤ c ∧ c ≤ 0x39 then some (c - 0x30)
  else if 0x61 ≤ c ∧ c ≤ 0x66 then some (c - 0x57)
  else if 0x41 ≤ c ∧ c ≤ 0x46 then some (c - 0x37)
  else none

/-- String body after the opening quote: unescapes until the closing quote,
rejecting raw control characters and malformed escapes. -/
def parseStringBody : List Nat → Option (List Nat × List Nat)
  | [] => none
  | c :: rest =>
    if c = 0x22 then some ([], rest)
    else if c = 0x5C then
      match rest with
      | [] => none
      | esc :: rest2 =>
        if esc = 0x22 ∨ esc = 0x5C ∨ esc = 0x2F then
          (parseStringBody rest2).map (fun p => (esc :: p.1, p.2))
        else if esc = 0x62 then (parseStringBody rest2).map (fun p => (0x08 :: p.1, p.2))
        else if esc = 0x66 then (parseStringBody rest2).map (fun p => (0x0C :: p.1, p.2))
        else if esc = 0x6E then (parseStringBody rest2).map (fun p => (0x0A :: p.1, p.2))
        else if esc = 0x72 then (parseStringBody rest2).map (fun p => (0x0D :: p.1, p.2))
        else if esc = 0x74 then (parseStringBody rest2).map (fun p => (0x09 :: p.1, p.2))
        else if esc = 0x75 then
          match rest2 with
          | h1 :: h2 :: h3 :: h4 :: rest6 =>
            match hexVal h1, hexVal h2, hexVal h3, hexVal h4 with
            | some v1, some v2, some v3, some v4 =>
              (parseStringBody rest6).map
                (fun p => ((v1 * 4096 + v2 * 256 + v3 * 16 + v4) :: p.1, p.2))
            | _, _, _, _ => none
          | _ => none
        else none
    else if c < 0x20 then none
    else (parseStringBody rest).map (fun p => (c :: p.1, p.2))

/-- Fraction part: digits after an optional decimal point (empty otherwise). -/
def parseFrac : List Nat → Option (List Nat × List Nat)
  | 0x2E :: rest =>
    let p := takeDigits rest
    if p.1 = [] then none else some (p.1, p.2)
  | s => some ([], s)

/-- Exponent part: signed digits after an optional `e`/`E` (zero otherwise). -/
def parseExp : List Nat → Option (Int × List Nat)
  | [] => some (0, [])
  | c :: rest =>
    if c = 0x65 ∨ c = 0x45 then
      match rest with
      | [] => none
      | c2 :: rest2 =>
        let sp : Bool × List Nat :=
          if c2 = 0x2D then (true, rest2)
          else if c2 = 0x2B then (false, rest2) else (false, c2 :: rest2)
        let p := takeDigits sp.2
        if p.1 = [] then none
        else some ((if sp.1 then -(foldDigits p.1 : Int) else (foldDigits p.1 : Int)), p.2)
    else some (0, c :: rest)

/-- Number denoted by sign, integer digits, fraction digits and exponent,
read exactly and normalized. -/
def mkNumber (neg : Bool) (intDs fracDs : List Nat) (ex : Int) : JSNumber :=
  let D := foldDigits intDs * 10 ^ fracDs.length + foldDigits fracDs
  let E := ex - fracDs.length
  if D = 0 then (if neg then .negZero else .zero)
  else normRep (.finite neg D E)

/-- JSON number literal at the head of the input. -/
def parseNumber (s : List Nat) : Option (JSNumber × List Nat) :=
  let sp : Bool × List Nat :=
    match s with
    | c :: rest => if c = 0x2D then (true, rest) else (false, s)
    | [] => (false, [])
  let p := takeDigits sp.2
  if p.1 = [] then none
  else if p.1.length > 1 ∧ p.1.headI = 0x30 then none
  else
    match parseFrac p.2 with
    | none => none
    | some (fracDs, r2) =>
      match parseExp r2 with
      | none => none
      | some (ex, r3) => some (mkNumber sp.1 p.1 fracDs ex, r3)

/-- Consume an expected literal tail (the rest of `true`/`false`/`null`). -/
def dropLit : List Nat → List Nat → Option (List Nat)
  | [], s => some s
  | _ :: _, [] => none
  | c :: cs, d :: ds => if c = d then dropLit cs ds else none

/-- Property assignment `obj[k] = v`: overwrite in place or append. -/
def assignPair : JSObj → JSString → JSValue → JSObj
  | .nil, k, v => .cons k v .nil
  | .cons k0 v0 rest, k, v =>
    if k0 = k then .cons k0 v rest else .cons k0 v0 (assignPair rest k v)

/-- Object built by assigning the parsed members in text order: a duplicated
key keeps its first position and its last value, as in `JSON.parse`. -/
def objFromAssignments (l : List (JSString × JSValue)) : JSObj :=
  l.foldl (fun acc p => assignPair acc p.1 p.2) .nil

mutual
/-- JSON value at the head of the input (fuelled recursive descent). -/
def parseValue : Nat → List Nat → Option (JSValue × List Nat)
  | 0, _ => none
  | fuel + 1, s =>
    match skipWs s with
    | [] => none
    | c :: rest =>
      if c = 0x7B then
        match skipWs rest with
        | 0x7D :: r2 => some (.obj .nil, r2)
        | s2 => (parseMembers fuel s2).map (fun p => (.obj (objFromAssignments p.1), p.2))
      else if c = 0x5B then
        match skipWs rest with
        | 0x5D :: r2 => some (.arr .nil, r2)
        | s2 => (parseElems fuel s2).map (fun p => (.arr p.1, p.2))
      else if c = 0x22 then (parseStringBody rest).map (fun p => (.str p.1, p.2))
      else if c = 0x2D ∨ isDigit c then (parseNumber (c :: rest)).map (fun p => (.num p.1, p.2))
      else if c = 0x74 then (dropLit (cu "rue") rest).map (fun r => (.bool true, r))
      else if c = 0x66 then (dropLit (cu "alse") rest).map (fun r => (.bool false, r))
      else if c = 0x6E then (dropLit (cu "ull") rest).map (fun r => (.null, r))
      else none
/-- Comma-separated array elements up to the closing bracket. -/
def parseElems : Nat → List Nat → Option (JSArr × List Nat)
  | 0, _ => none
  | fuel + 1, s =>
    match parseValue fuel s with
    | none => none
    | some (v, r1) =>
      match skipWs r1 with
      | 0x2C :: r2 =>
        match parseElems fuel r2 with
        | some (vs, r3) => some (.cons v vs, r3)
        | none => none
      | 0x5D :: r2 => some (.cons v .nil, r2)
      | _ => none
/-- Comma-separated `"key" : value` members up to the closing brace, in text
order. -/
def parseMembers : Nat → List Nat → Option (List (JSString × JSValue) × List Nat)
  | 0, _ => none
  | fuel + 1, s =>
    match skipWs s with
    | 0x22 :: r0 =>
      match parseStringBody r0 with
      | none => none
      | some (k, r1) =>
        match skipWs r1 with
        | 0x3A :: r2 =>
          match parseValue fuel r2 with
          | none => none
          | some (v, r3) =>
            match skipWs r3 with
            | 0x2C :: r4 =>
              match parseMembers fuel r4 with
              | some (ms, r5) => some ((k, v) :: ms, r5)
              | none => none
            | 0x7D :: r4 => some ([(k, v)], r4)
            | _ => none
        | _ => none
    | _ => none
end

/-- Model of `JSON.parse` on a code-unit sequence: one value, then only
trailing whitespace. -/
def jsonParse (units : List Nat) : Except CanonError JSValue :=
  match parseValue (units.length + 1) units with
  | some (v, rest) => if skipWs rest = [] then .ok v else .error .parseError
  | none => .error .parseError

/-- Model of the exported `canonicalizeBytes`: decode, parse, re-canonicalize. -/
def canonicalizeBytes (jsonBytes : List Nat) : Except CanonError (List Nat) :=
  match jsonParse (utf8Decode jsonBytes) with
  | .ok parsed => canonicalize parsed
  | .error e => .error e

/-- Model of the exported `validateIntegrity`: the source's length check plus
element loop amount to list equality, and the `try`/`catch` maps every error
to `false`. -/
def validateIntegrity (jsonBytes : List Nat) : Bool :=
  match canonicalizeBytes jsonBytes with
  | .ok canonical => jsonBytes == canonical
  | .error _ => false

/-! ## Well-formedness and the value model -/

/-- Well-formed UTF-16: no unpaired surrogate halves, all units below 2^16. -/
def wfUnits : List Nat → Bool
  | [] => true
  | [c] => decide (c < 0xD800 ∨ (0xE000 ≤ c ∧ c < 0x10000))
  | c :: c2 :: rest =>
    if c < 0xD800 ∨ (0xE000 ≤ c ∧ c < 0x10000) then wfUnits (c2 :: rest)
    else if 0xD800 ≤ c ∧ c < 0xDC00 then
      decide (0xDC00 ≤ c2 ∧ c2 < 0xE000) && wfUnits rest
    else false

/-- The numbers denoting IEEE doubles in the model: finite nonzero values
carry their shortest-decimal digits (nonzero, not divisible by ten). -/
def goodNum : JSNumber → Bool
  | .nan | .posInf | .negInf => false
  | .zero | .negZero => true
  | .finite _ d _ => d != 0 && d % 10 != 0

/-- Key list free of duplicates (by code-unit equality). -/
def nodupKeys : List JSString → Bool
  | [] => true
  | k :: ks => !(ks.contains k) && nodupKeys ks

mutual
/-- Values of the spec's value model on which the round-trip theorems run:
finite shortest-form numbers, well-formed UTF-16 strings, and objects whose
NFC-normalized keys are distinct. -/
def goodV : JSValue → Bool
  | .undef => true
  | .null => true
  | .bool _ => true
  | .num n => goodNum n
  | .str s => wfUnits s
  | .arr xs => goodA xs
  | .obj o =>
    goodO o && nodupKeys ((JSObj.toList o).map (fun p => normalizeNFC p.1))
  | .fn => false
  | .sym => false
def goodA : JSArr → Bool
  | .nil => true
  | .cons v rest => goodV v && goodA rest
def goodO : JSObj → Bool
  | .nil => true
  | .cons k v rest => wfUnits k && goodV v && goodO rest
end

/-! ## Derived notions used by the theorems -/

/-- Integer magnitude of an integral `±(d × 10^e)`. -/
def intMag (d : Nat) (e : Int) : Nat :=
  if 0 ≤ e then d * 10 ^ e.toNat else d / 10 ^ (-e).toNat

/-- Concatenated escapes of a string body (the loop of `canonicalizeString`
written as a map). -/
def escapeAll : List Nat → List Nat
  | [] => []
  | c :: t => escapeUnit c ++ escapeAll t

/-- A continuation on which a JSON number literal ends: empty input or a unit
that extends neither the digits, the fraction, nor the exponent. -/
def numberStop : List Nat → Bool
  | [] => true
  | c :: _ => !(isDigit c || c == 0x2E || c == 0x65 || c == 0x45)

/-- Units a canonical text can start with: a quote, a minus, a digit, `t`,
`f`, `n`, an opening bracket or an opening brace. -/
def goodHead (c : Nat) : Bool :=
  c == 0x22 || c == 0x2D || isDigit c || c == 0x74 || c == 0x66 || c == 0x6E ||
  c == 0x5B || c == 0x7B

/-- No two adjacent units compose: the fixed points of the composition pass. -/
def noComposablePair (l : List Nat) : Prop :=
  l.Chain' (fun a b => composePair a b = none)

/-- Explicit-recursion form of `List.mapM` in the `Except` monad, used to
reason about the traversals. -/
def mapME {α β : Type} (f : α → Except CanonError β) : List α → Except CanonError (List β)
  | [] => .ok []
  | k :: t =>
    match f k, mapME f t with
    | .ok b, .ok bs => .ok (b :: bs)
    | .error e, _ => .error e
    | .ok _, .error e => .error e

/-- Rendered `key:valueText` member of an object body. -/
def pairText (it : JSString × List Nat) : List Nat :=
  canonicalizeString it.1 ++ [0x3A] ++ it.2

/-! # Theorems

First, groundwork about decimal digits and the number representation. -/

theorem natDigitsAux_zero (f : Nat) : natDigitsAux f 0 = [] := by
  cases f <;> simp [natDigitsAux]

theorem natDigitsAux_eq_of_le :
    ∀ (f1 n f2 : Nat), n ≤ f1 → n ≤ f2 → natDigitsAux f1 n = natDigitsAux f2 n := by
  intro f1
  induction f1 with
  | zero =>
    intro n f2 h1 _
    have hn : n = 0 := Nat.le_zero.mp h1
    subst hn
    simp [natDigitsAux_zero]
  | succ f ih =>
    intro n f2 h1 h2
    by_cases hn : n = 0
    · subst hn; simp [natDigitsAux_zero]
    · cases f2 with
      | zero => omega
      | succ g =>
        simp only [natDigitsAux, if_neg hn]
        congr 1
        exact ih (n / 10) g (by omega) (by omega)

theorem natDigitsAux_spec (f n : Nat) (h : n ≤ f) :
    natDigitsAux f n =
      if n = 0 then [] else natDigitsAux f (n / 10) ++ [0x30 + n % 10] := by
  cases f with
  | zero =>
    have : n = 0 := by omega
    subst this
    simp [natDigitsAux_zero]
  | succ g =>
    by_cases hn : n = 0
    · subst hn; simp [natDigitsAux_zero]
    · have hstep : natDigitsAux (g + 1) n = natDigitsAux g (n / 10) ++ [0x30 + n % 10] := by
        simp [natDigitsAux, hn]
      rw [if_neg hn, hstep,
        natDigitsAux_eq_of_le g (n / 10) (g + 1) (by omega) (by omega)]

theorem natDigits_spec (n : Nat) (h : n ≠ 0) : natDigits n = natDigitsAux n n := by
  simp [natDigits, h]

theorem natDigitsAux_digits :
    ∀ n, ∀ f, n ≤ f → ∀ c ∈ natDigitsAux f n, 0x30 ≤ c ∧ c ≤ 0x39 := by
  intro n
  induction n using Nat.strong_induction_on with
  | _ n ih =>
    intro f h c hc
    rw [natDigitsAux_spec f n h] at hc
    by_cases hn : n = 0
    · simp [hn] at hc
    · rw [if_neg hn] at hc
      rcases List.mem_append.mp hc with h1 | h2
      · exact ih (n / 10) (by omega) f (by omega) c h1
      · have : c = 0x30 + n % 10 := by simpa using h2
        omega

theorem natDigitsAux_head :
    ∀ n, ∀ f, n ≠ 0 → n ≤ f →
      ∃ c ts, natDigitsAux f n = c :: ts ∧ 0x31 ≤ c ∧ c ≤ 0x39 := by
  intro n
  induction n using Nat.strong_induction_on with
  | _ n ih =>
    intro f hn h
    rw [natDigitsAux_spec f n h, if_neg hn]
    by_cases h10 : n / 10 = 0
    · rw [h10, natDigitsAux_zero]
      refine ⟨0x30 + n % 10, [], by simp, by omega, by omega⟩
    · obtain ⟨c, ts, hcons, hc1, hc2⟩ := ih (n / 10) (by omega) f h10 (by omega)
      exact ⟨c, ts ++ [0x30 + n % 10], by rw [hcons]; rfl, hc1, hc2⟩

theorem natDigits_head (n : Nat) (hn : n ≠ 0) :
    ∃ c ts, natDigits n = c :: ts ∧ 0x31 ≤ c ∧ c ≤ 0x39 := by
  rw [natDigits_spec n hn]
  exact natDigitsAux_head n n hn le_rfl

theorem natDigits_digits (n : Nat) : ∀ c ∈ natDigits n, 0x30 ≤ c ∧ c ≤ 0x39 := by
  by_cases hn : n = 0
  · subst hn; intro c hc; simp [natDigits] at hc; omega
  · rw [natDigits_spec n hn]; exact natDigitsAux_digits n n le_rfl

theorem natDigits_ne_nil (n : Nat) : natDigits n ≠ [] := by
  by_cases hn : n = 0
  · subst hn; simp [natDigits]
  · obtain ⟨c, ts, hcons, _, _⟩ := natDigits_head n hn
    simp [hcons]

theorem natDigitsAux_length_le :
    ∀ k n f, n ≤ f → n < 10 ^ k → (natDigitsAux f n).length ≤ k := by
  intro k
  induction k with
  | zero =>
    intro n f _ hlt
    have : n = 0 := by simpa using hlt
    subst this
    simp [natDigitsAux_zero]
  | succ k ih =>
    intro n f h hlt
    by_cases hn : n = 0
    · subst hn; simp [natDigitsAux_zero]
    · rw [natDigitsAux_spec f n h, if_neg hn]
      have hdiv : n / 10 < 10 ^ k := Nat.div_lt_of_lt_mul (by rw [← pow_succ']; omega)
      simp only [List.length_append, List.length_cons, List.length_nil]
      have := ih (n / 10) f (by omega) hdiv
      omega

theorem natDigitsAux_length_ge :
    ∀ n, ∀ f, n ≠ 0 → n ≤ f → 10 ^ ((natDigitsAux f n).length - 1) ≤ n := by
  intro n
  induction n using Nat.strong_induction_on with
  | _ n ih =>
    intro f hn h
    rw [natDigitsAux_spec f n h, if_neg hn]
    by_cases h10 : n / 10 = 0
    · rw [h10, natDigitsAux_zero]
      simpa using Nat.one_le_iff_ne_zero.mpr hn
    · have hrec := ih (n / 10) (by omega) f h10 (by omega)
      obtain ⟨c, ts, hcons, _, _⟩ := natDigitsAux_head (n / 10) f h10 (by omega)
      simp only [List.length_append, List.length_cons, List.length_nil]
      have hlen : (natDigitsAux f (n / 10)).length ≥ 1 := by rw [hcons]; simp
      have h2 : 10 ^ ((natDigitsAux f (n / 10)).length - 1) ≤ n / 10 := hrec
      have h3 : 10 ^ (natDigitsAux f (n / 10)).length ≤ (n / 10) * 10 := by
        calc 10 ^ (natDigitsAux f (n / 10)).length
            = 10 ^ ((natDigitsAux f (n / 10)).length - 1) * 10 := by
              rw [← pow_succ]; congr 1; omega
          _ ≤ (n / 10) * 10 := by exact Nat.mul_le_mul_right 10 h2
      have h4 : (n / 10) * 10 ≤ n := by omega
      have : (natDigitsAux f (n / 10)).length + 1 - 1 = (natDigitsAux f (n / 10)).length := by
        omega
      rw [this]
      omega

theorem foldDigits_foldl (b : List Nat) :
    ∀ init : Nat,
      b.foldl (fun acc c => acc * 10 + digitVal c) init =
        init * 10 ^ b.length + foldDigits b := by
  induction b with
  | nil => intro init; simp [foldDigits]
  | cons c t ih =>
    intro init
    have hr : foldDigits (c :: t) =
        List.foldl (fun acc c => acc * 10 + digitVal c) (digitVal c) t := by
      simp [foldDigits]
    rw [List.foldl_cons, ih, hr, ih (digitVal c), List.length_cons]
    ring

theorem foldDigits_append (a b : List Nat) :
    foldDigits (a ++ b) = foldDigits a * 10 ^ b.length + foldDigits b := by
  have h : foldDigits (a ++ b) =
      b.foldl (fun acc c => acc * 10 + digitVal c) (foldDigits a) := by
    simp [foldDigits, List.foldl_append]
  rw [h, foldDigits_foldl]

theorem foldDigits_natDigitsAux : ∀ n, ∀ f, n ≤ f → foldDigits (natDigitsAux f n) = n := by
  intro n
  induction n using Nat.strong_induction_on with
  | _ n ih =>
    intro f h
    rw [natDigitsAux_spec f n h]
    by_cases hn : n = 0
    · simp [hn, foldDigits]
    · rw [if_neg hn, foldDigits_append, ih (n / 10) (by omega) f (by omega)]
      have : foldDigits [0x30 + n % 10] = n % 10 := by
        simp [foldDigits, digitVal]
      rw [this]
      simp only [List.length_cons, List.length_nil, pow_one]
      omega

theorem foldDigits_natDigits (n : Nat) : foldDigits (natDigits n) = n := by
  by_cases hn : n = 0
  · subst hn; simp [natDigits, foldDigits, digitVal]
  · rw [natDigits_spec n hn]
    exact foldDigits_natDigitsAux n n le_rfl

theorem natDigits_mul_ten (m : Nat) (hm : m ≠ 0) :
    natDigits (m * 10) = natDigits m ++ [0x30] := by
  have hm10 : m * 10 ≠ 0 := by omega
  rw [natDigits_spec (m * 10) hm10,
    natDigitsAux_spec (m * 10) (m * 10) le_rfl, if_neg hm10]
  have h1 : m * 10 / 10 = m := by omega
  have h2 : m * 10 % 10 = 0 := by omega
  rw [h1, h2, natDigitsAux_eq_of_le (m * 10) m m (by omega) le_rfl, ← natDigits_spec m hm]

theorem natDigits_mul_pow (d : Nat) (hd : d ≠ 0) :
    ∀ k, natDigits (d * 10 ^ k) = natDigits d ++ List.replicate k 0x30 := by
  intro k
  induction k with
  | zero => simp
  | succ k ih =>
    have h1 : d * 10 ^ (k + 1) = d * 10 ^ k * 10 := by ring
    have hm : d * 10 ^ k ≠ 0 := by positivity
    rw [h1, natDigits_mul_ten (d * 10 ^ k) hm, ih, List.append_assoc,
      ← List.replicate_succ' k 0x30]

theorem stripZeros_not_dvd (f d : Nat) (h : d % 10 ≠ 0) : stripZeros f d = (d, 0) := by
  have hd : d ≠ 0 := by omega
  cases f with
  | zero => rfl
  | succ g => simp [stripZeros, hd, h]

theorem stripZeros_step (g d : Nat) (hne : d ≠ 0) (hmod : d % 10 = 0) :
    stripZeros (g + 1) d = ((stripZeros g (d / 10)).1, (stripZeros g (d / 10)).2 + 1) := by
  simp [stripZeros, hne, hmod]

theorem stripZeros_mul_pow (d : Nat) (hd : d ≠ 0) (h10 : d % 10 ≠ 0) :
    ∀ k f, d * 10 ^ k ≤ f → stripZeros f (d * 10 ^ k) = (d, k) := by
  intro k
  induction k with
  | zero =>
    intro f _
    simpa using stripZeros_not_dvd f d h10
  | succ k ih =>
    intro f hf
    have hpos : 0 < d * 10 ^ k :=
      Nat.mul_pos (Nat.pos_of_ne_zero hd) (pow_pos (by norm_num) k)
    have hmeq : d * 10 ^ (k + 1) = d * 10 ^ k * 10 := by ring
    rw [hmeq] at hf ⊢
    cases f with
    | zero => exfalso; omega
    | succ g =>
      have hmod : d * 10 ^ k * 10 % 10 = 0 := Nat.mul_mod_left _ 10
      have hne : d * 10 ^ k * 10 ≠ 0 := by omega
      rw [stripZeros_step g _ hne hmod]
      have hdiv : d * 10 ^ k * 10 / 10 = d * 10 ^ k :=
        Nat.mul_div_cancel _ (by norm_num)
      rw [hdiv, ih g (by omega)]

theorem normRep_good (neg : Bool) (d : Nat) (e : Int) (hd : d ≠ 0) (h10 : d % 10 ≠ 0) :
    normRep (.finite neg d e) = .finite neg d e := by
  simp [normRep, hd, stripZeros_not_dvd d d h10]

/-! Order lemmas for the key comparator. -/

theorem keyLe_refl : ∀ a, keyLe a a = true := by
  intro a
  induction a with
  | nil => rfl
  | cons x xs ih => simp [keyLe, ih]

theorem keyLe_total : ∀ a b, keyLe a b = true ∨ keyLe b a = true := by
  intro a
  induction a with
  | nil => intro b; left; rfl
  | cons x xs ih =>
    intro b
    cases b with
    | nil => right; rfl
    | cons y ys =>
      rcases Nat.lt_trichotomy x y with h | h | h
      · left; simp [keyLe, h]
      · subst h
        rcases ih ys with h2 | h2
        · left; simp [keyLe, h2]
        · right; simp [keyLe, h2]
      · right; simp [keyLe, h]

theorem keyLe_antisymm : ∀ a b, keyLe a b = true → keyLe b a = true → a = b := by
  intro a
  induction a with
  | nil =>
    intro b h1 h2
    cases b with
    | nil => rfl
    | cons y ys => simp [keyLe] at h2
  | cons x xs ih =>
    intro b h1 h2
    cases b with
    | nil => simp [keyLe] at h1
    | cons y ys =>
      by_cases hxy : x < y
      · simp [keyLe, hxy] at h2
        omega
      · by_cases hyx : y < x
        · simp [keyLe, hxy, hyx] at h1
        · have hxy2 : x = y := by omega
          subst hxy2
          simp only [keyLe, if_neg (by omega : ¬x < x)] at h1 h2
          rw [ih ys h1 h2]

theorem keyLe_trans : ∀ a b c, keyLe a b = true → keyLe b c = true → keyLe a c = true := by
  intro a
  induction a with
  | nil => intro b c _ _; rfl
  | cons x xs ih =>
    intro b c h1 h2
    cases b with
    | nil => simp [keyLe] at h1
    | cons y ys =>
      cases c with
      | nil => simp [keyLe] at h2
      | cons z zs =>
        by_cases hxy : x < y
        · by_cases hyz : y < z
          · simp [keyLe, (by omega : x < z)]
          · by_cases hzy : z < y
            · simp [keyLe, hyz] at h2
              omega
            · have : y = z := by omega
              subst this
              simp [keyLe, hxy]
        · by_cases hyx : y < x
          · simp [keyLe, hxy, hyx] at h1
          · have hxy2 : x = y := by omega
            subst hxy2
            simp only [keyLe, if_neg (by omega : ¬x < x)] at h1
            by_cases hxz : x < z
            · simp [keyLe, hxz]
            · by_cases hzx : z < x
              · simp [keyLe, hxz] at h2
                omega
              · have : x = z := by omega
                subst this
                simp only [keyLe, if_neg (by omega : ¬x < x)] at h2 ⊢
                exact ih ys zs h1 h2

instance : IsTotal JSString (fun a b => keyLe a b = true) := ⟨keyLe_total⟩

instance : IsTrans JSString (fun a b => keyLe a b = true) := ⟨keyLe_trans⟩

instance : IsAntisymm JSString (fun a b => keyLe a b = true) := ⟨keyLe_antisymm⟩

theorem insertKey_perm (x : JSString) (l : List (List Nat)) :
    (insertKey x l).Perm (x :: l) := by
  induction l with
  | nil => exact List.Perm.refl _
  | cons y ys ih =>
    simp only [insertKey]
    by_cases h : keyLe x y = true
    · rw [if_pos h]
    · rw [if_neg h]
      exact (ih.cons y).trans (List.Perm.swap x y ys)

theorem insertKey_sorted (x : JSString) (l : List (List Nat))
    (hs : l.Pairwise (fun a b => keyLe a b = true)) :
    (insertKey x l).Pairwise (fun a b => keyLe a b = true) := by
  induction l with
  | nil => simp [insertKey]
  | cons y ys ih =>
    rcases List.pairwise_cons.mp hs with ⟨hy, hys⟩
    by_cases h : keyLe x y = true
    · simp only [insertKey, if_pos h]
      refine List.pairwise_cons.mpr ⟨?_, hs⟩
      intro z hz
      rcases List.mem_cons.mp hz with rfl | hz2
      · exact h
      · exact keyLe_trans x y z h (hy z hz2)
    · simp only [insertKey, if_neg h]
      refine List.pairwise_cons.mpr ⟨?_, ih hys⟩
      intro z hz
      have hz2 : z ∈ x :: ys := (insertKey_perm x ys).mem_iff.mp hz
      rcases List.mem_cons.mp hz2 with rfl | hz3
      · rcases keyLe_total y z with h2 | h2
        · exact h2
        · exact absurd h2 h
      · exact hy z hz3

theorem sortKeys_perm : ∀ l : List (List Nat), (sortKeys l).Perm l := by
  intro l
  induction l with
  | nil => exact List.Perm.refl _
  | cons x xs ih => exact (insertKey_perm x (sortKeys xs)).trans (ih.cons x)

theorem sortKeys_sorted : ∀ l : List (List Nat),
    (sortKeys l).Pairwise (fun a b => keyLe a b = true) := by
  intro l
  induction l with
  | nil => simp [sortKeys]
  | cons x xs ih => exact insertKey_sorted x (sortKeys xs) ih

theorem sortKeys_of_sorted : ∀ l : List (List Nat),
    l.Pairwise (fun a b => keyLe a b = true) → sortKeys l = l := by
  intro l
  induction l with
  | nil => intro _; rfl
  | cons y ys ih =>
    intro hs
    rcases List.pairwise_cons.mp hs with ⟨hy, hys⟩
    simp only [sortKeys, ih hys]
    cases ys with
    | nil => rfl
    | cons z zs => simp [insertKey, hy z (by simp)]

theorem sortKeys_eq_of_perm (l1 l2 : List (List Nat)) (h : l1.Perm l2) :
    sortKeys l1 = sortKeys l2 :=
  List.eq_of_perm_of_sorted (((sortKeys_perm l1).trans h).trans (sortKeys_perm l2).symm)
    (sortKeys_sorted l1) (sortKeys_sorted l2)

/-! Lemmas about the composition pass: it reaches a normal form with no
composable adjacent pair, and it is the identity on such normal forms —
together, idempotence of the NFC model. -/

theorem composePair_none_of_not_mark (x c : Nat) (h1 : c ≠ 0x301) (h2 : c ≠ 0x300) :
    composePair x c = none := by
  simp [composePair, h1, h2]

theorem composePair_val (b m c : Nat) (h : composePair b m = some c) :
    c = 0xE9 ∨ c = 0xC9 ∨ c = 0xE1 ∨ c = 0xC1 ∨ c = 0xE8 ∨ c = 0xE0 := by
  unfold composePair at h
  split_ifs at h <;> simp_all

theorem composePair_comp_none (b m c x : Nat) (h : composePair b m = some c) :
    composePair x c = none := by
  rcases composePair_val b m c h with rfl | rfl | rfl | rfl | rfl | rfl <;>
    exact composePair_none_of_not_mark x _ (by omega) (by omega)

theorem nfcRun_of_normalized : ∀ (f : Nat) (l : List Nat),
    noComposablePair l → nfcRun f l = l := by
  intro f
  induction f with
  | zero => intro l _; rfl
  | succ g ih =>
    intro l h
    match l with
    | [] => rfl
    | [c] => rfl
    | c1 :: c2 :: rest =>
      rcases List.chain'_cons.mp h with ⟨hc, ht⟩
      simp only [nfcRun, hc]
      rw [ih (c2 :: rest) ht]

theorem nfcRun_head : ∀ (f : Nat) (c : Nat) (rest : List Nat),
    ∃ h t, nfcRun f (c :: rest) = h :: t ∧
      (h = c ∨ ∃ b m, composePair b m = some h) := by
  intro f
  induction f with
  | zero => intro c rest; exact ⟨c, rest, rfl, Or.inl rfl⟩
  | succ g ih =>
    intro c rest
    match rest with
    | [] => exact ⟨c, [], rfl, Or.inl rfl⟩
    | c2 :: rest2 =>
      cases hcp : composePair c c2 with
      | some cc =>
        obtain ⟨h, t, heq, hh⟩ := ih cc rest2
        refine ⟨h, t, ?_, ?_⟩
        · simp only [nfcRun, hcp]
          exact heq
        · rcases hh with rfl | hcomp
          · exact Or.inr ⟨c, c2, hcp⟩
          · exact Or.inr hcomp
      | none =>
        refine ⟨c, nfcRun g (c2 :: rest2), ?_, Or.inl rfl⟩
        simp only [nfcRun, hcp]

theorem nfcRun_normalized : ∀ (f : Nat) (l : List Nat),
    l.length ≤ f → noComposablePair (nfcRun f l) := by
  intro f
  induction f with
  | zero =>
    intro l h
    have : l = [] := List.length_eq_zero.mp (by omega)
    subst this
    exact List.chain'_nil
  | succ g ih =>
    intro l h
    match l with
    | [] => exact List.chain'_nil
    | [c] =>
      show noComposablePair [c]
      exact List.chain'_singleton c
    | c1 :: c2 :: rest =>
      cases hcp : composePair c1 c2 with
      | some cc =>
        simp only [nfcRun, hcp]
        exact ih (cc :: rest) (by simp at h ⊢; omega)
      | none =>
        simp only [nfcRun, hcp]
        obtain ⟨hd, tl, heq, hh⟩ := nfcRun_head g c2 rest
        rw [heq]
        refine List.chain'_cons.mpr ⟨?_, ?_⟩
        · rcases hh with rfl | ⟨b, m, hbm⟩
          · exact hcp
          · exact composePair_comp_none b m hd c1 hbm
        · rw [← heq]
          exact ih (c2 :: rest) (by simp at h ⊢; omega)

theorem normalizeNFC_normalized (s : List Nat) : noComposablePair (normalizeNFC s) :=
  nfcRun_normalized s.length s le_rfl

theorem normalizeNFC_idem (s : List Nat) :
    normalizeNFC (normalizeNFC s) = normalizeNFC s := by
  unfold normalizeNFC
  exact nfcRun_of_normalized _ _ (nfcRun_normalized s.length s le_rfl)

/-! Shape of `canonicalizeString`: the result-accumulating loop written as a
per-unit escape map between two quotes. -/

theorem foldl_escape (l : List Nat) :
    ∀ init : List Nat,
      l.foldl (fun acc c => acc ++ escapeUnit c) init = init ++ escapeAll l := by
  induction l with
  | nil => intro init; simp [escapeAll]
  | cons c t ih =>
    intro init
    simp only [List.foldl_cons, escapeAll]
    rw [ih, List.append_assoc]

theorem canonicalizeString_eq (s : JSString) :
    canonicalizeString s = [0x22] ++ escapeAll (normalizeNFC s) ++ [0x22] := by
  simp only [canonicalizeString]
  rw [foldl_escape, List.append_assoc]

theorem canonicalizeObjEntries_keys : ∀ o : JSObj,
    (canonicalizeObjEntries o).map Prod.fst = (JSObj.toList o).map Prod.fst
  | .nil => rfl
  | .cons k v rest => by
    simp [canonicalizeObjEntries, JSObj.toList, canonicalizeObjEntries_keys rest]

/-- C10: the input `undefined` is not rejected at the public interface:
`canonicalizeToString(undefined)` returns the literal text `null`,
`canonicalize(undefined)` returns the UTF-8 bytes of `null`, and both agree
with the output for a Null value. -/
theorem claim_C10 :
    canonicalizeToString JSValue.undef = .ok (cu "null") ∧
    canonicalize JSValue.undef = .ok (cu "null") ∧
    canonicalizeToString JSValue.undef = canonicalizeToString JSValue.null ∧
    canonicalize JSValue.undef = canonicalize JSValue.null := by decide

/-- C3 counterexample: `undefined` is not one of the six value-model cases,
yet canonicalization does not fail on it with an unsupported-type error — it
produces the output `null`. -/
theorem claim_C3_counterexample :
    canonicalizeValue JSValue.undef = .ok (cu "null") ∧
    (canonicalizeValue JSValue.undef).isOk = true := by decide

/-- C3 amended: every input that is outside the six value-model cases and is
not `undefined` — a function or a symbol — fails with the unsupported-type
error carrying its `typeof` tag, producing no output. -/
theorem claim_C3_amended :
    canonicalizeValue JSValue.fn = .error (.unsupportedType (cu "function")) ∧
    canonicalizeValue JSValue.sym = .error (.unsupportedType (cu "symbol")) ∧
    canonicalize JSValue.fn = .error (.unsupportedType (cu "function")) ∧
    canonicalize JSValue.sym = .error (.unsupportedType (cu "symbol")) := by decide

/-- C6: each non-finite number — NaN, positive infinity, negative infinity —
fails canonicalization with the non-finite-number error, both at the number
renderer and at the public entry point; no output is produced. -/
theorem claim_C6 :
    canonicalizeNumber .nan = .error .nonFiniteNumber ∧
    canonicalizeNumber .posInf = .error .nonFiniteNumber ∧
    canonicalizeNumber .negInf = .error .nonFiniteNumber ∧
    canonicalize (.num .nan) = .error .nonFiniteNumber ∧
    canonicalize (.num .posInf) = .error .nonFiniteNumber ∧
    canonicalize (.num .negInf) = .error .nonFiniteNumber := by decide

/-- C2: for every byte sequence, `validateIntegrity` returns true exactly when
`canonicalizeBytes` succeeds with a byte-for-byte identical result, and any
error inside the check (parse failure included) yields `false` instead of
propagating. -/
theorem claim_C2 : ∀ jsonBytes : List Nat,
    (validateIntegrity jsonBytes = true ↔ canonicalizeBytes jsonBytes = .ok jsonBytes) ∧
    (∀ e, canonicalizeBytes jsonBytes = .error e → validateIntegrity jsonBytes = false) := by
  intro bs
  refine ⟨?_, ?_⟩
  · unfold validateIntegrity
    cases h : canonicalizeBytes bs with
    | ok c =>
      simp only [beq_iff_eq]
      exact ⟨fun hb => by rw [hb], fun hok => ((Except.ok.inj hok)).symm⟩
    | error e => simp
  · intro e he
    unfold validateIntegrity
    rw [he]

/-- Witness for C2 at a concrete non-JSON input. -/
theorem claim_C2_witness : validateIntegrity (cu "x") = false :=
  (claim_C2 (cu "x")).2 CanonError.parseError (by decide)

/-- C5: string canonicalization first NFC-normalizes, then escapes each unit
between two double quotes, with exactly the two specials, the five named
control escapes, `\u00XX` in lower-case hex for the remaining control
characters, and the literal character — no `\uXXXX` escape — for everything
at U+0020 and above. -/
theorem claim_C5 :
    (∀ str : JSString,
        canonicalizeString str = [0x22] ++ escapeAll (normalizeNFC str) ++ [0x22]) ∧
    escapeUnit 0x22 = [0x5C, 0x22] ∧
    escapeUnit 0x5C = [0x5C, 0x5C] ∧
    escapeUnit 0x08 = [0x5C, 0x62] ∧
    escapeUnit 0x0C = [0x5C, 0x66] ∧
    escapeUnit 0x0A = [0x5C, 0x6E] ∧
    escapeUnit 0x0D = [0x5C, 0x72] ∧
    escapeUnit 0x09 = [0x5C, 0x74] ∧
    (∀ n, n < 16 →
      (0x30 ≤ hexDigit n ∧ hexDigit n ≤ 0x39) ∨ (0x61 ≤ hexDigit n ∧ hexDigit n ≤ 0x66)) ∧
    (∀ c, c < 0x20 → c ∉ [0x22, 0x5C, 0x08, 0x0C, 0x0A, 0x0D, 0x09] →
      escapeUnit c = [0x5C, 0x75, 0x30, 0x30, hexDigit (c / 16), hexDigit (c % 16)]) ∧
    (∀ c, 0x20 ≤ c → c ≠ 0x22 → c ≠ 0x5C → escapeUnit c = [c]) := by
  refine ⟨canonicalizeString_eq, by decide, by decide, by decide, by decide, by decide,
    by decide, by decide, by decide, ?_, ?_⟩
  · intro c hc hmem
    simp only [List.mem_cons, List.not_mem_nil, or_false] at hmem
    push_neg at hmem
    obtain ⟨h22, h5C, h08, h0C, h0A, h0D, h09⟩ := hmem
    simp only [escapeUnit, if_neg h22, if_neg h5C, if_neg h08, if_neg h0C, if_neg h0A,
      if_neg h0D, if_neg h09, if_pos hc, toHexPad4]
    have e1 : c / 4096 % 16 = 0 := by omega
    have e2 : c / 256 % 16 = 0 := by omega
    have e3 : c / 16 % 16 = c / 16 := by omega
    rw [e1, e2, e3]
    rfl
  · intro c hge h22 h5C
    simp only [escapeUnit, if_neg h22, if_neg h5C, if_neg (by omega : ¬c = 0x08),
      if_neg (by omega : ¬c = 0x0C), if_neg (by omega : ¬c = 0x0A),
      if_neg (by omega : ¬c = 0x0D), if_neg (by omega : ¬c = 0x09),
      if_neg (by omega : ¬c < 0x20)]

/-- Witness for C5: a control character gets the padded lower-case `\u` form;
a printable non-ASCII character stays literal. -/
theorem claim_C5_witness :
    escapeUnit 0x01 = [0x5C, 0x75, 0x30, 0x30, hexDigit 0, hexDigit 1] ∧
    escapeUnit 0xE9 = [0xE9] := by
  constructor
  · exact claim_C5.2.2.2.2.2.2.2.2.2.1 0x01 (by decide) (by decide)
  · exact claim_C5.2.2.2.2.2.2.2.2.2.2 0xE9 (by decide) (by decide) (by decide)

/-- C4: object canonicalization emits the NFC-normalized keys in an order that
is a permutation of them sorted under the code-unit comparator (`keyLe`:
unit-by-unit numeric comparison, a proper prefix sorting first), and on the
four-key example `z_key, a_key, A_key, m_key` the emitted order is
`A_key, a_key, m_key, z_key`. -/
theorem claim_C4 :
    (∀ o : JSObj, ∃ ks : List JSString,
        ks.Perm ((JSObj.toList o).map (fun p => normalizeNFC p.1)) ∧
        ks.Pairwise (fun a b => keyLe a b = true) ∧
        canonicalizeObject o = renderPairs (canonicalizeObjEntries o) ks) ∧
    canonicalizeToString (.obj (jobj
      [(cu "z_key", .num .zero), (cu "a_key", .num (.finite false 1 0)),
       (cu "A_key", .num (.finite false 2 0)), (cu "m_key", .num (.finite false 3 0))])) =
      .ok (cu "\x7b\"A_key\":2,\"a_key\":1,\"m_key\":3,\"z_key\":0\x7d") := by
  constructor
  · intro o
    refine ⟨sortKeys (((canonicalizeObjEntries o).map Prod.fst).map normalizeNFC),
      ?_, sortKeys_sorted _, rfl⟩
    rw [canonicalizeObjEntries_keys o, List.map_map]
    exact sortKeys_perm _
  · decide

/-- C9: when two distinct keys share one NFC normalization, the object
canonicalizer emits one pair per original key — the normalized key appears
twice — and both pairs carry the value of the first original key in
enumeration order whose normalization matches; the second value is absent. -/
theorem claim_C9 : ∀ (k1 k2 : JSString) (v1 v2 : JSValue) (s1 : List Nat),
    k1 ≠ k2 → normalizeNFC k1 = normalizeNFC k2 →
    canonicalizeValue v1 = .ok s1 →
    canonicalizeObject (jobj [(k1, v1), (k2, v2)]) =
      .ok ([0x7B] ++ canonicalizeString (normalizeNFC k1) ++ [0x3A] ++ s1 ++ [0x2C] ++
        canonicalizeString (normalizeNFC k1) ++ [0x3A] ++ s1 ++ [0x7D]) := by
  intro k1 k2 v1 v2 s1 hne hnorm hok
  have hentries : canonicalizeObjEntries (jobj [(k1, v1), (k2, v2)]) =
      [(k1, canonicalizeValue v1), (k2, canonicalizeValue v2)] := rfl
  unfold canonicalizeObject canonicalizeObjectFromEntries
  rw [hentries]
  have hkeys : ([(k1, canonicalizeValue v1), (k2, canonicalizeValue v2)].map Prod.fst).map
      normalizeNFC = [normalizeNFC k1, normalizeNFC k1] := by
    simp [← hnorm]
  rw [hkeys]
  have hsort : sortKeys [normalizeNFC k1, normalizeNFC k1] =
      [normalizeNFC k1, normalizeNFC k1] := by
    simp [sortKeys, insertKey, keyLe_refl]
  rw [hsort]
  have hfind : List.find? (fun p => normalizeNFC p.1 == normalizeNFC k1)
      [(k1, canonicalizeValue v1), (k2, canonicalizeValue v2)] =
      some (k1, canonicalizeValue v1) := by
    simp [List.find?]
  unfold renderPairs
  rw [List.mapM_cons, List.mapM_cons, List.mapM_nil, hfind, hok]
  show Except.ok ([0x7B] ++ joinComma
      [canonicalizeString (normalizeNFC k1) ++ [0x3A] ++ s1,
       canonicalizeString (normalizeNFC k1) ++ [0x3A] ++ s1] ++ [0x7D]) = _
  simp [joinComma, List.append_assoc]

/-- Witness for C9: the precomposed `é` and `e` plus combining acute collide
under NFC; the first key's value is emitted twice. -/
theorem claim_C9_witness :
    canonicalizeObject (jobj [([0xE9], .null), ([0x65, 0x301], .bool true)]) =
      .ok ([0x7B] ++ canonicalizeString (normalizeNFC [0xE9]) ++ [0x3A] ++ cu "null" ++
        [0x2C] ++ canonicalizeString (normalizeNFC [0xE9]) ++ [0x3A] ++ cu "null" ++
        [0x7D]) :=
  claim_C9 [0xE9] [0x65, 0x301] .null (.bool true) (cu "null")
    (by decide) (by decide) (by decide)

/-! Number rendering on integral values. -/

theorem stripZeros_full (d : Nat) : ∀ f, d ≠ 0 → d ≤ f →
    ∃ d' j, stripZeros f d = (d', j) ∧ d = d' * 10 ^ j ∧ d' % 10 ≠ 0 ∧ d' ≠ 0 := by
  induction d using Nat.strong_induction_on with
  | _ d ih =>
    intro f hd hf
    by_cases h10 : d % 10 = 0
    · cases f with
      | zero => omega
      | succ g =>
        rw [stripZeros_step g d hd h10]
        have hne : d / 10 ≠ 0 := by omega
        obtain ⟨d', j, hs, h1, h2, h3⟩ := ih (d / 10) (by omega) g hne (by omega)
        refine ⟨d', j + 1, by rw [hs], ?_, h2, h3⟩
        calc d = d / 10 * 10 := by omega
          _ = d' * 10 ^ j * 10 := by rw [← h1]
          _ = d' * 10 ^ (j + 1) := by ring
    · rw [stripZeros_not_dvd f d h10]
      exact ⟨d, 0, rfl, by simp, h10, hd⟩

theorem normRep_finite (neg : Bool) (d : Nat) (e : Int) (hd : d ≠ 0) :
    ∃ (d' : Nat) (j : Nat), normRep (.finite neg d e) = .finite neg d' (e + (j : Int)) ∧
      d = d' * 10 ^ j ∧ d' % 10 ≠ 0 ∧ d' ≠ 0 := by
  obtain ⟨d', j, hs, h1, h2, h3⟩ := stripZeros_full d d hd le_rfl
  refine ⟨d', j, ?_, h1, h2, h3⟩
  simp [normRep, hd, hs]

theorem natDigits_length_pos (d : Nat) : 1 ≤ (natDigits d).length :=
  List.length_pos.mpr (natDigits_ne_nil d)

theorem ecmaFormatMag_int (d' : Nat) (e' : Int) (hd : d' ≠ 0) (h0 : 0 ≤ e')
    (hbound : d' * 10 ^ e'.toNat ≤ maxSafeInteger) :
    ecmaFormatMag d' e' = natDigits (d' * 10 ^ e'.toNat) := by
  have hk1 : 10 ^ ((natDigits d').length - 1) ≤ d' := by
    rw [natDigits_spec d' hd]
    exact natDigitsAux_length_ge d' d' hd le_rfl
  have hklen := natDigits_length_pos d'
  have hn : e' + ((natDigits d').length : Int) ≤ 21 := by
    by_contra hcon
    push_neg at hcon
    have hm : 10 ^ ((natDigits d').length - 1 + e'.toNat) ≤ d' * 10 ^ e'.toNat := by
      rw [pow_add]
      exact Nat.mul_le_mul_right _ hk1
    have hbig : (10:Nat) ^ 21 ≤ 10 ^ ((natDigits d').length - 1 + e'.toNat) :=
      Nat.pow_le_pow_right (by norm_num) (by omega)
    have hfin : (10:Nat) ^ 21 ≤ maxSafeInteger := le_trans hbig (le_trans hm hbound)
    norm_num [maxSafeInteger] at hfin
  simp only [ecmaFormatMag]
  rw [if_pos ⟨h0, hn⟩]
  exact (natDigits_mul_pow d' hd e'.toNat).symm

theorem numToString_int (neg : Bool) (d : Nat) (e : Int) (hd : d ≠ 0)
    (hint : numIsInteger (.finite neg d e) = true)
    (hsafe : numAbsLe (.finite neg d e) maxSafeInteger = true) :
    numToString (.finite neg d e) =
      (if neg then [0x2D] else []) ++ natDigits (intMag d e) ∧
    intMag d e ≠ 0 ∧ intMag d e ≤ maxSafeInteger := by
  obtain ⟨d', j, hnr, heq, h10, hne⟩ := normRep_finite neg d e hd
  by_cases he : 0 ≤ e
  · have htoNat : (e + (j : Int)).toNat = e.toNat + j := by omega
    have hmag : intMag d e = d' * 10 ^ (e + (j : Int)).toNat := by
      simp only [intMag, if_pos he]
      rw [heq, htoNat]
      ring
    have hsafe2 : d * 10 ^ e.toNat ≤ maxSafeInteger := by
      simp only [numAbsLe, if_pos he, decide_eq_true_eq] at hsafe
      exact hsafe
    have hbound : d' * 10 ^ (e + (j : Int)).toNat ≤ maxSafeInteger := by
      rw [← hmag]
      simp only [intMag, if_pos he]
      exact hsafe2
    have hm0 : intMag d e ≠ 0 := by
      rw [hmag]
      positivity
    refine ⟨?_, hm0, by rw [hmag]; exact hbound⟩
    simp only [numToString, hnr]
    rw [ecmaFormatMag_int d' (e + j) hne (by omega) hbound, hmag]
  · push_neg at he
    have hfeq : ((-e).toNat : Int) = -e := by omega
    have hdvd : 10 ^ (-e).toNat ∣ d := by
      simp only [numIsInteger, Bool.or_eq_true, decide_eq_true_eq, beq_iff_eq] at hint
      rcases hint with h | h
      · omega
      · exact Nat.dvd_of_mod_eq_zero h
    have hjf : (-e).toNat ≤ j := by
      by_contra hcon
      push_neg at hcon
      have hsplit : (10:Nat) ^ (-e).toNat = 10 ^ ((-e).toNat - j) * 10 ^ j := by
        rw [← pow_add]
        congr 1
        omega
      rw [heq, hsplit] at hdvd
      have hdvd2 : 10 ^ ((-e).toNat - j) ∣ d' := by
        have hpos : 0 < (10:Nat) ^ j := pow_pos (by norm_num) j
        exact (Nat.mul_dvd_mul_iff_right hpos).mp hdvd
      have h10d : (10:Nat) ∣ d' :=
        dvd_trans (dvd_pow_self 10 (by omega : (-e).toNat - j ≠ 0)) hdvd2
      exact h10 (Nat.eq_zero_of_dvd_of_lt h10d |> fun _ => by omega)
    have htoNat : (e + (j : Int)).toNat = j - (-e).toNat := by omega
    have hmag : intMag d e = d' * 10 ^ (e + (j : Int)).toNat := by
      simp only [intMag, if_neg (by omega : ¬(0:Int) ≤ e)]
      rw [heq, htoNat]
      have hsplit : (10:Nat) ^ j = 10 ^ (j - (-e).toNat) * 10 ^ (-e).toNat := by
        rw [← pow_add]
        congr 1
        omega
      rw [hsplit, ← mul_assoc]
      exact Nat.mul_div_cancel _ (pow_pos (by norm_num) _)
    have hsafe2 : d ≤ maxSafeInteger * 10 ^ (-e).toNat := by
      simp only [numAbsLe, if_neg (by omega : ¬(0:Int) ≤ e), decide_eq_true_eq] at hsafe
      exact hsafe
    have hbound : d' * 10 ^ (e + (j : Int)).toNat ≤ maxSafeInteger := by
      rw [← hmag]
      simp only [intMag, if_neg (by omega : ¬(0:Int) ≤ e)]
      calc d / 10 ^ (-e).toNat ≤ maxSafeInteger * 10 ^ (-e).toNat / 10 ^ (-e).toNat :=
            Nat.div_le_div_right hsafe2
        _ = maxSafeInteger := Nat.mul_div_cancel _ (pow_pos (by norm_num) _)
    have hm0 : intMag d e ≠ 0 := by
      rw [hmag]
      positivity
    refine ⟨?_, hm0, by rw [hmag]; exact hbound⟩
    simp only [numToString, hnr]
    rw [ecmaFormatMag_int d' (e + j) hne (by omega) hbound, hmag]

/-- C7: negative zero canonicalizes to the text `0`, and every finite number
that is mathematically integral and within the exact-integer range renders
with no decimal point and no exponent, identically to the corresponding
integer — in particular the double written `100.0` (the value `1 × 10^2`)
renders as `100`. -/
theorem claim_C7 :
    canonicalizeNumber .negZero = .ok [0x30] ∧
    canonicalizeToString (.num (.finite false 1 2)) = .ok (cu "100") ∧
    (∀ (neg : Bool) (d : Nat) (e : Int), d ≠ 0 →
      numIsInteger (.finite neg d e) = true →
      numAbsLe (.finite neg d e) maxSafeInteger = true →
      canonicalizeNumber (.finite neg d e) =
        .ok ((if neg then [0x2D] else []) ++ natDigits (intMag d e)) ∧
      0x2E ∉ (if neg then [0x2D] else []) ++ natDigits (intMag d e) ∧
      0x65 ∉ (if neg then [0x2D] else []) ++ natDigits (intMag d e) ∧
      canonicalizeNumber (.finite neg d e) =
        canonicalizeNumber (.finite neg (intMag d e) 0)) := by
  refine ⟨by decide, by decide, ?_⟩
  intro neg d e hd hint hsafe
  have hnz : numIsNegZero (.finite neg d e) = false := by
    simp [numIsNegZero, hd]
  have hbranch : canonicalizeNumber (.finite neg d e) =
      .ok (numToString (.finite neg d e)) := by
    simp [canonicalizeNumber, hnz, numIsFinite, hint, numIsSafeInteger, hsafe]
  obtain ⟨hts, hm0, hmle⟩ := numToString_int neg d e hd hint hsafe
  refine ⟨by rw [hbranch, hts], ?_, ?_, ?_⟩
  · intro hmem
    rcases List.mem_append.mp hmem with h1 | h1
    · cases neg <;> simp at h1
    · have := natDigits_digits (intMag d e) 0x2E h1
      omega
  · intro hmem
    rcases List.mem_append.mp hmem with h1 | h1
    · cases neg <;> simp at h1
    · have := natDigits_digits (intMag d e) 0x65 h1
      omega
  · have hint2 : numIsInteger (.finite neg (intMag d e) 0) = true := by
      simp [numIsInteger]
    have hsafe2 : numAbsLe (.finite neg (intMag d e) 0) maxSafeInteger = true := by
      simp only [numAbsLe, if_pos (le_refl (0:Int)), decide_eq_true_eq]
      simpa using hmle
    have hnz2 : numIsNegZero (.finite neg (intMag d e) 0) = false := by
      simp [numIsNegZero, hm0]
    have hbranch2 : canonicalizeNumber (.finite neg (intMag d e) 0) =
        .ok (numToString (.finite neg (intMag d e) 0)) := by
      simp [canonicalizeNumber, hnz2, numIsFinite, hint2, numIsSafeInteger, hsafe2]
    obtain ⟨hts2, _, _⟩ := numToString_int neg (intMag d e) 0 hm0 hint2 hsafe2
    rw [hbranch, hbranch2, hts, hts2]
    have : intMag (intMag d e) 0 = intMag d e := by
      simp [intMag]
    rw [this]

/-- Witness for C7 at the double `100.0` (stored as `1 × 10^2`): integral,
safe, rendered `100` with no decimal point and identically to the integer. -/
theorem claim_C7_witness :
    canonicalizeNumber (.finite false 1 2) = .ok ((if false then [0x2D] else []) ++
      natDigits (intMag 1 2)) ∧
    0x2E ∉ (if false then [0x2D] else []) ++ natDigits (intMag 1 2) ∧
    0x65 ∉ (if false then [0x2D] else []) ++ natDigits (intMag 1 2) ∧
    canonicalizeNumber (.finite false 1 2) = canonicalizeNumber (.finite false (intMag 1 2) 0) :=
  claim_C7.2.2 false 1 2 (by decide) (by decide) (by decide)

/-! Key-order invariance machinery: the entries list as a map over the pair
list, `find?` stability under permutation when at most one element matches,
and a bound on matches from key distinctness. -/

theorem canonicalizeObjEntries_eq : ∀ o : JSObj,
    canonicalizeObjEntries o = (JSObj.toList o).map (fun p => (p.1, canonicalizeValue p.2))
  | .nil => rfl
  | .cons k v rest => by
    simp [canonicalizeObjEntries, JSObj.toList, canonicalizeObjEntries_eq rest]

theorem find?_perm_of_countP_le_one {α : Type} (p : α → Bool) :
    ∀ {l1 l2 : List α}, l1.Perm l2 → l1.countP p ≤ 1 → l1.find? p = l2.find? p := by
  intro l1 l2 h
  induction h with
  | nil => intro _; rfl
  | cons x h ih =>
    intro hc
    by_cases hp : p x
    · rw [List.find?_cons_of_pos _ hp, List.find?_cons_of_pos _ hp]
    · rw [List.find?_cons_of_neg _ hp, List.find?_cons_of_neg _ hp]
      apply ih
      rw [List.countP_cons] at hc
      omega
  | swap x y l =>
    intro hc
    by_cases hx : p x <;> by_cases hy : p y
    · exfalso
      simp [List.countP_cons, hx, hy] at hc
    · rw [List.find?_cons_of_neg _ hy, List.find?_cons_of_pos _ hx,
        List.find?_cons_of_pos _ hx]
    · rw [List.find?_cons_of_pos _ hy, List.find?_cons_of_neg _ hx,
        List.find?_cons_of_pos _ hy]
    · rw [List.find?_cons_of_neg _ hy, List.find?_cons_of_neg _ hx,
        List.find?_cons_of_neg _ hx, List.find?_cons_of_neg _ hy]
  | trans h1 h2 ih1 ih2 =>
    intro hc
    rw [ih1 hc, ih2 (by rw [← h1.countP_eq]; exact hc)]

theorem countP_le_one_of_nodup_norm :
    ∀ (l : List (JSString × Except CanonError (List Nat))) (K : JSString),
      nodupKeys (l.map (fun p => normalizeNFC p.1)) = true →
      l.countP (fun p => normalizeNFC p.1 == K) ≤ 1 := by
  intro l K h
  induction l with
  | nil => simp
  | cons x xs ih =>
    simp only [List.map_cons, nodupKeys, Bool.and_eq_true, Bool.not_eq_true'] at h
    obtain ⟨hnc, hnd⟩ := h
    rw [List.countP_cons]
    by_cases hx : (normalizeNFC x.1 == K) = true
    · have hzero : xs.countP (fun p => normalizeNFC p.1 == K) = 0 := by
        rw [List.countP_eq_zero]
        intro q hq hqk
        have hKx : normalizeNFC x.1 = K := beq_iff_eq.mp hx
        have hqK : normalizeNFC q.1 = K := beq_iff_eq.mp hqk
        have hmem : normalizeNFC x.1 ∈ xs.map (fun p => normalizeNFC p.1) := by
          rw [hKx, ← hqK]
          exact List.mem_map_of_mem _ hq
        have hcontains : List.elem (normalizeNFC x.1) (xs.map (fun p => normalizeNFC p.1)) =
            true := List.elem_iff.mpr hmem
        have hnc2 : List.elem (normalizeNFC x.1) (xs.map (fun p => normalizeNFC p.1)) =
            false := hnc
        rw [hnc2] at hcontains
        exact Bool.false_ne_true hcontains
      rw [hzero, hx]
      norm_num
    · have hx2 : (normalizeNFC x.1 == K) = false := by
        simpa using hx
      rw [hx2]
      simpa using ih hnd

/-- C8 counterexample: two mappings with the same key/value pairs in different
insertion orders whose canonical bytes differ — the two keys collide under
NFC, so the re-scan picks a different first key in each enumeration order. -/
theorem claim_C8_counterexample :
    (JSObj.toList (jobj [([0xE9], .num .zero), ([0x65, 0x301], .bool true)])).Perm
      (JSObj.toList (jobj [([0x65, 0x301], .bool true), ([0xE9], .num .zero)])) ∧
    canonicalize (.obj (jobj [([0xE9], .num .zero), ([0x65, 0x301], .bool true)])) ≠
      canonicalize (.obj (jobj [([0x65, 0x301], .bool true), ([0xE9], .num .zero)])) := by
  constructor
  · decide
  · decide

/-- C8 amended: for mappings holding identical key/value pairs in different
orders whose keys have pairwise distinct NFC normalizations, the canonical
bytes coincide. -/
theorem claim_C8_amended : ∀ o1 o2 : JSObj,
    (JSObj.toList o1).Perm (JSObj.toList o2) →
    nodupKeys ((JSObj.toList o1).map (fun p => normalizeNFC p.1)) = true →
    canonicalize (.obj o1) = canonicalize (.obj o2) := by
  intro o1 o2 hperm hnd
  have he1 := canonicalizeObjEntries_eq o1
  have he2 := canonicalizeObjEntries_eq o2
  have hpe : (canonicalizeObjEntries o1).Perm (canonicalizeObjEntries o2) := by
    rw [he1, he2]
    exact hperm.map _
  have hndE : nodupKeys ((canonicalizeObjEntries o1).map (fun p => normalizeNFC p.1)) = true := by
    rw [he1, List.map_map]
    exact hnd
  have hv : canonicalizeValue (.obj o1) = canonicalizeValue (.obj o2) := by
    show canonicalizeObjectFromEntries (canonicalizeObjEntries o1) =
      canonicalizeObjectFromEntries (canonicalizeObjEntries o2)
    unfold canonicalizeObjectFromEntries
    have hsort : sortKeys (((canonicalizeObjEntries o1).map Prod.fst).map normalizeNFC) =
        sortKeys (((canonicalizeObjEntries o2).map Prod.fst).map normalizeNFC) :=
      sortKeys_eq_of_perm _ _ ((hpe.map _).map _)
    rw [← hsort]
    unfold renderPairs
    have hfind : ∀ K : JSString,
        (canonicalizeObjEntries o1).find? (fun p => normalizeNFC p.1 == K) =
        (canonicalizeObjEntries o2).find? (fun p => normalizeNFC p.1 == K) := by
      intro K
      exact find?_perm_of_countP_le_one _ hpe (countP_le_one_of_nodup_norm _ K hndE)
    have hfun : (fun key =>
        match (canonicalizeObjEntries o1).find? (fun p => normalizeNFC p.1 == key) with
        | some p => p.2.map (fun s => canonicalizeString key ++ [0x3A] ++ s)
        | none => Except.ok (canonicalizeString key ++ [0x3A] ++ cu "null")) =
        (fun key =>
        match (canonicalizeObjEntries o2).find? (fun p => normalizeNFC p.1 == key) with
        | some p => p.2.map (fun s => canonicalizeString key ++ [0x3A] ++ s)
        | none => Except.ok (canonicalizeString key ++ [0x3A] ++ cu "null")) := by
      funext key
      rw [hfind key]
    rw [hfun]
  simp [canonicalize, canonicalizeToString, hv]

/-- Witness for C8 at a two-key mapping and its reversal. -/
theorem claim_C8_witness :
    canonicalize (.obj (jobj [(cu "b", .null), (cu "a", .bool true)])) =
      canonicalize (.obj (jobj [(cu "a", .bool true), (cu "b", .null)])) :=
  claim_C8_amended _ _ (by decide) (by decide)

/-! UTF-8: decoding inverts encoding on well-formed UTF-16. -/

theorem utf8DecodeF_nil (k : Nat) : utf8DecodeF k [] = [] := by
  cases k <;> rfl

theorem utf8DecodeF_step1 (c : Nat) (h : c < 0x80) (fuel : Nat) (rest : List Nat) :
    utf8DecodeF (fuel + 1) (utf8EncodeScalar c ++ rest) = c :: utf8DecodeF fuel rest := by
  simp only [utf8EncodeScalar, if_pos h, List.cons_append, List.nil_append]
  simp only [utf8DecodeF, if_pos h]

theorem utf8DecodeF_step2 (c : Nat) (h1 : 0x80 ≤ c) (h2 : c < 0x800)
    (fuel : Nat) (rest : List Nat) :
    utf8DecodeF (fuel + 1) (utf8EncodeScalar c ++ rest) = c :: utf8DecodeF fuel rest := by
  have e1 : ¬ c < 0x80 := by omega
  simp only [utf8EncodeScalar, if_neg e1, if_pos h2, List.cons_append, List.nil_append]
  have hb1a : ¬ (0xC0 + c / 64) < 0x80 := by omega
  have hb1b : ¬ (0xC0 + c / 64) < 0xC2 := by omega
  have hb1c : (0xC0 + c / 64) < 0xE0 := by omega
  simp only [utf8DecodeF, if_neg hb1a, if_neg hb1b, if_pos hb1c]
  have hcont : isCont (0x80 + c % 64) = true := by
    simp only [isCont, Bool.and_eq_true, decide_eq_true_eq]
    omega
  rw [if_pos hcont]
  congr 1
  omega

theorem utf8DecodeF_step3 (c : Nat) (h1 : 0x800 ≤ c) (h2 : c < 0x10000)
    (hs : ¬(0xD800 ≤ c ∧ c < 0xE000)) (fuel : Nat) (rest : List Nat) :
    utf8DecodeF (fuel + 1) (utf8EncodeScalar c ++ rest) = c :: utf8DecodeF fuel rest := by
  have e1 : ¬ c < 0x80 := by omega
  have e2 : ¬ c < 0x800 := by omega
  simp only [utf8EncodeScalar, if_neg e1, if_neg e2, if_pos h2, List.cons_append,
    List.nil_append]
  have hb1a : ¬ (0xE0 + c / 4096) < 0x80 := by omega
  have hb1b : ¬ (0xE0 + c / 4096) < 0xC2 := by omega
  have hb1c : ¬ (0xE0 + c / 4096) < 0xE0 := by omega
  have hb1d : (0xE0 + c / 4096) < 0xF0 := by omega
  simp only [utf8DecodeF, if_neg hb1a, if_neg hb1b, if_neg hb1c, if_pos hb1d]
  have hcont : (isCont (0x80 + c / 64 % 64) && isCont (0x80 + c % 64)) = true := by
    simp only [isCont, Bool.and_eq_true, decide_eq_true_eq]
    omega
  rw [if_pos hcont]
  have hval : (0xE0 + c / 4096 - 0xE0) * 4096 + (0x80 + c / 64 % 64 - 0x80) * 64 +
      (0x80 + c % 64 - 0x80) = c := by omega
  rw [hval, if_pos ⟨h1, hs⟩]

theorem utf8DecodeF_step4 (c : Nat) (h1 : 0x10000 ≤ c) (h2 : c < 0x110000)
    (fuel : Nat) (rest : List Nat) :
    utf8DecodeF (fuel + 1) (utf8EncodeScalar c ++ rest) =
      unitsOfScalar c ++ utf8DecodeF fuel rest := by
  have e1 : ¬ c < 0x80 := by omega
  have e2 : ¬ c < 0x800 := by omega
  have e3 : ¬ c < 0x10000 := by omega
  simp only [utf8EncodeScalar, if_neg e1, if_neg e2, if_neg e3, List.cons_append,
    List.nil_append]
  have hb1a : ¬ (0xF0 + c / 262144) < 0x80 := by omega
  have hb1b : ¬ (0xF0 + c / 262144) < 0xC2 := by omega
  have hb1c : ¬ (0xF0 + c / 262144) < 0xE0 := by omega
  have hb1d : ¬ (0xF0 + c / 262144) < 0xF0 := by omega
  have hb1e : (0xF0 + c / 262144) < 0xF5 := by omega
  simp only [utf8DecodeF, if_neg hb1a, if_neg hb1b, if_neg hb1c, if_neg hb1d, if_pos hb1e]
  have hcont : (isCont (0x80 + c / 4096 % 64) && isCont (0x80 + c / 64 % 64) &&
      isCont (0x80 + c % 64)) = true := by
    simp only [isCont, Bool.and_eq_true, decide_eq_true_eq]
    omega
  rw [if_pos hcont]
  have hval : (0xF0 + c / 262144 - 0xF0) * 262144 + (0x80 + c / 4096 % 64 - 0x80) * 4096 +
      (0x80 + c / 64 % 64 - 0x80) * 64 + (0x80 + c % 64 - 0x80) = c := by omega
  rw [hval, if_pos ⟨h1, h2⟩]

theorem unitsOfScalar_pair (hi lo : Nat) (hh1 : 0xD800 ≤ hi) (hh2 : hi < 0xDC00)
    (hl1 : 0xDC00 ≤ lo) (hl2 : lo < 0xE000) :
    unitsOfScalar (0x10000 + (hi - 0xD800) * 0x400 + (lo - 0xDC00)) = [hi, lo] := by
  have h1 : ¬ (0x10000 + (hi - 0xD800) * 0x400 + (lo - 0xDC00)) < 0x10000 := by omega
  simp only [unitsOfScalar, if_neg h1]
  have e1 : 0xD800 + (0x10000 + (hi - 0xD800) * 0x400 + (lo - 0xDC00) - 0x10000) / 0x400 =
      hi := by omega
  have e2 : 0xDC00 + (0x10000 + (hi - 0xD800) * 0x400 + (lo - 0xDC00) - 0x10000) % 0x400 =
      lo := by omega
  rw [e1, e2]

theorem wfUnits_one (c : Nat) (h : wfUnits [c] = true) :
    c < 0xD800 ∨ (0xE000 ≤ c ∧ c < 0x10000) := by
  simpa [wfUnits] using h

theorem wfUnits_cons_cases (c c2 : Nat) (rest : List Nat)
    (h : wfUnits (c :: c2 :: rest) = true) :
    ((c < 0xD800 ∨ (0xE000 ≤ c ∧ c < 0x10000)) ∧ wfUnits (c2 :: rest) = true) ∨
    ((0xD800 ≤ c ∧ c < 0xDC00) ∧ (0xDC00 ≤ c2 ∧ c2 < 0xE000) ∧ wfUnits rest = true) := by
  by_cases h1 : c < 0xD800 ∨ (0xE000 ≤ c ∧ c < 0x10000)
  · simp only [wfUnits, if_pos h1] at h
    exact Or.inl ⟨h1, h⟩
  · by_cases h2 : 0xD800 ≤ c ∧ c < 0xDC00
    · simp only [wfUnits, if_neg h1, if_pos h2, Bool.and_eq_true, decide_eq_true_eq] at h
      exact Or.inr ⟨h2, h.1, h.2⟩
    · simp only [wfUnits, if_neg h1, if_neg h2] at h
      exact absurd h (by simp)

theorem utf8EncodeScalar_length_pos (c : Nat) : 1 ≤ (utf8EncodeScalar c).length := by
  unfold utf8EncodeScalar
  split_ifs <;> simp

theorem scalarSteps_le : ∀ (n : Nat) (s : List Nat), s.length ≤ n →
    scalarSteps s ≤ (utf8Encode s).length := by
  intro n
  induction n with
  | zero =>
    intro s h
    have : s = [] := List.length_eq_zero.mp (by omega)
    subst this
    simp [scalarSteps, utf8Encode]
  | succ m ih =>
    intro s h
    match s with
    | [] => simp [scalarSteps, utf8Encode]
    | [c] =>
      simp only [scalarSteps, utf8Encode]
      split_ifs <;> simpa using utf8EncodeScalar_length_pos _
    | c :: c2 :: rest =>
      simp only [scalarSteps, utf8Encode]
      by_cases hp : (0xD800 ≤ c ∧ c < 0xDC00) ∧ (0xDC00 ≤ c2 ∧ c2 < 0xE000)
      · rw [if_pos hp, if_pos hp.1, if_pos hp.2]
        have h1 := utf8EncodeScalar_length_pos
          (0x10000 + (c - 0xD800) * 0x400 + (c2 - 0xDC00))
        have h2 := ih rest (by simp at h; omega)
        simp only [List.length_append]
        omega
      · rw [if_neg hp]
        have h2 := ih (c2 :: rest) (by simp at h ⊢; omega)
        by_cases ha : 0xD800 ≤ c ∧ c < 0xDC00
        · rw [if_pos ha]
          have hb : ¬ (0xDC00 ≤ c2 ∧ c2 < 0xE000) := fun hb => hp ⟨ha, hb⟩
          rw [if_neg hb]
          have h1 := utf8EncodeScalar_length_pos 0xFFFD
          simp only [List.length_append]
          omega
        · rw [if_neg ha]
          split_ifs with hc
          · have h1 := utf8EncodeScalar_length_pos 0xFFFD
            simp only [List.length_append]
            omega
          · have h1 := utf8EncodeScalar_length_pos c
            simp only [List.length_append]
            omega

theorem utf8DecodeF_encode : ∀ (n : Nat) (s : List Nat), s.length ≤ n →
    wfUnits s = true → ∀ (k : Nat) (tailB : List Nat),
      utf8DecodeF (scalarSteps s + k) (utf8Encode s ++ tailB) =
        s ++ utf8DecodeF k tailB := by
  intro n
  induction n with
  | zero =>
    intro s h _ k tailB
    have : s = [] := List.length_eq_zero.mp (by omega)
    subst this
    simp [scalarSteps, utf8Encode]
  | succ m ih =>
    intro s hlen hwf k tailB
    match s with
    | [] => simp [scalarSteps, utf8Encode]
    | [c] =>
      have hc := wfUnits_one c hwf
      have henc : utf8Encode [c] = utf8EncodeScalar c := by
        simp only [utf8Encode]
        rw [if_neg (by omega : ¬(0xD800 ≤ c ∧ c < 0xE000))]
      rw [henc]
      show utf8DecodeF (1 + k) _ = _
      rw [Nat.add_comm 1 k]
      rcases Nat.lt_or_ge c 0x80 with h1 | h1
      · exact utf8DecodeF_step1 c h1 k tailB
      · rcases Nat.lt_or_ge c 0x800 with h2 | h2
        · exact utf8DecodeF_step2 c h1 h2 k tailB
        · exact utf8DecodeF_step3 c h2 (by omega) (by omega) k tailB
    | c :: c2 :: rest =>
      rcases wfUnits_cons_cases c c2 rest hwf with ⟨hsc, hwf2⟩ | ⟨hhi, hlo, hwf2⟩
      · have hnotp : ¬ ((0xD800 ≤ c ∧ c < 0xDC00) ∧ (0xDC00 ≤ c2 ∧ c2 < 0xE000)) := by
          omega
        have hsteps : scalarSteps (c :: c2 :: rest) = 1 + scalarSteps (c2 :: rest) := by
          simp only [scalarSteps, if_neg hnotp]
        have henc : utf8Encode (c :: c2 :: rest) =
            utf8EncodeScalar c ++ utf8Encode (c2 :: rest) := by
          simp only [utf8Encode]
          rw [if_neg (by omega : ¬(0xD800 ≤ c ∧ c < 0xDC00)),
            if_neg (by omega : ¬(0xDC00 ≤ c ∧ c < 0xE000))]
        rw [hsteps, henc, List.append_assoc]
        have harr : 1 + scalarSteps (c2 :: rest) + k =
            (scalarSteps (c2 :: rest) + k) + 1 := by omega
        rw [harr]
        have hih := ih (c2 :: rest) (by simp at hlen ⊢; omega) hwf2 k tailB
        rcases Nat.lt_or_ge c 0x80 with h1 | h1
        · rw [utf8DecodeF_step1 c h1 _ _, hih]
          rfl
        · rcases Nat.lt_or_ge c 0x800 with h2 | h2
          · rw [utf8DecodeF_step2 c h1 h2 _ _, hih]
            rfl
          · rw [utf8DecodeF_step3 c h2 (by omega) (by omega) _ _, hih]
            rfl
      · have hp : (0xD800 ≤ c ∧ c < 0xDC00) ∧ (0xDC00 ≤ c2 ∧ c2 < 0xE000) := ⟨hhi, hlo⟩
        have hsteps : scalarSteps (c :: c2 :: rest) = 1 + scalarSteps rest := by
          simp only [scalarSteps, if_pos hp]
        have henc : utf8Encode (c :: c2 :: rest) =
            utf8EncodeScalar (0x10000 + (c - 0xD800) * 0x400 + (c2 - 0xDC00)) ++
              utf8Encode rest := by
          simp only [utf8Encode]
          rw [if_pos hhi, if_pos hlo]
        rw [hsteps, henc, List.append_assoc]
        have harr : 1 + scalarSteps rest + k = (scalarSteps rest + k) + 1 := by omega
        rw [harr]
        have hih := ih rest (by simp at hlen ⊢; omega) hwf2 k tailB
        rw [utf8DecodeF_step4 _ (by omega) (by omega) _ _, hih,
          unitsOfScalar_pair c c2 hhi.1 hhi.2 hlo.1 hlo.2]
        rfl

theorem utf8Decode_encode (s : List Nat) (h : wfUnits s = true) :
    utf8Decode (utf8Encode s) = s := by
  unfold utf8Decode
  have hle : scalarSteps s ≤ (utf8Encode s).length := scalarSteps_le s.length s le_rfl
  obtain ⟨k, hk⟩ : ∃ k, (utf8Encode s).length = scalarSteps s + k :=
    ⟨(utf8Encode s).length - scalarSteps s, by omega⟩
  rw [hk]
  have hmain := utf8DecodeF_encode s.length s le_rfl h k []
  rw [List.append_nil] at hmain
  rw [hmain, utf8DecodeF_nil, List.append_nil]

/-! Well-formedness of the canonical text: every text the canonicalizer emits
for a value of the spec's value model is valid UTF-16. -/

theorem wfUnits_cons_scalar (c : Nat) (t : List Nat)
    (h : c < 0xD800 ∨ (0xE000 ≤ c ∧ c < 0x10000)) :
    wfUnits (c :: t) = wfUnits t := by
  cases t with
  | nil =>
    simp only [wfUnits]
    rw [decide_eq_true h]
  | cons c2 rest => simp only [wfUnits, if_pos h]

theorem wfUnits_cons_pair (hi lo : Nat) (t : List Nat)
    (hh : 0xD800 ≤ hi ∧ hi < 0xDC00) (hl : 0xDC00 ≤ lo ∧ lo < 0xE000) :
    wfUnits (hi :: lo :: t) = wfUnits t := by
  have h1 : ¬(hi < 0xD800 ∨ (0xE000 ≤ hi ∧ hi < 0x10000)) := by omega
  simp only [wfUnits, if_neg h1, if_pos hh]
  rw [decide_eq_true hl]
  simp

theorem wfUnits_append_aux : ∀ (n : Nat) (a b : List Nat), a.length ≤ n →
    wfUnits a = true → wfUnits b = true → wfUnits (a ++ b) = true := by
  intro n
  induction n with
  | zero =>
    intro a b hlen ha hb
    have : a = [] := List.length_eq_zero.mp (by omega)
    subst this
    simpa
  | succ m ih =>
    intro a b hlen ha hb
    match a with
    | [] => simpa
    | [c] =>
      have hc := wfUnits_one c ha
      show wfUnits (c :: b) = true
      rw [wfUnits_cons_scalar c b hc]
      exact hb
    | c :: c2 :: rest =>
      rcases wfUnits_cons_cases c c2 rest ha with ⟨hsc, ha2⟩ | ⟨hhi, hlo, ha2⟩
      · show wfUnits (c :: (c2 :: rest ++ b)) = true
        rw [wfUnits_cons_scalar c _ hsc]
        exact ih (c2 :: rest) b (by simp at hlen ⊢; omega) ha2 hb
      · show wfUnits (c :: c2 :: (rest ++ b)) = true
        rw [wfUnits_cons_pair c c2 _ hhi hlo]
        exact ih rest b (by simp at hlen ⊢; omega) ha2 hb

theorem wfUnits_append (a b : List Nat) (ha : wfUnits a = true) (hb : wfUnits b = true) :
    wfUnits (a ++ b) = true :=
  wfUnits_append_aux a.length a b le_rfl ha hb

theorem wfUnits_of_small : ∀ l : List Nat, (∀ c ∈ l, c < 0xD800) → wfUnits l = true := by
  intro l
  induction l with
  | nil => intro _; rfl
  | cons c t ih =>
    intro h
    rw [wfUnits_cons_scalar c t (Or.inl (h c (by simp)))]
    exact ih (fun x hx => h x (by simp [hx]))

theorem escapeUnit_literal (c : Nat) (h : 0x20 ≤ c) (h2 : c ≠ 0x22) (h3 : c ≠ 0x5C) :
    escapeUnit c = [c] := by
  simp only [escapeUnit, if_neg h2, if_neg h3, if_neg (by omega : ¬c = 0x08),
    if_neg (by omega : ¬c = 0x0C), if_neg (by omega : ¬c = 0x0A),
    if_neg (by omega : ¬c = 0x0D), if_neg (by omega : ¬c = 0x09),
    if_neg (by omega : ¬c < 0x20)]

theorem hexDigit_small (m : Nat) (hm : m ≤ 15) : hexDigit m < 0x80 := by
  unfold hexDigit
  split_ifs <;> omega

theorem wfUnits_escapeUnit (c : Nat) (h : c < 0xD800 ∨ (0xE000 ≤ c ∧ c < 0x10000)) :
    wfUnits (escapeUnit c) = true := by
  by_cases hc : c < 0x20
  · interval_cases c <;> decide
  · by_cases h22 : c = 0x22
    · subst h22; decide
    · by_cases h5c : c = 0x5C
      · subst h5c; decide
      · rw [escapeUnit_literal c (by omega) h22 h5c]
        simp only [wfUnits]
        exact decide_eq_true h

theorem wfUnits_escapeAll : ∀ (n : Nat) (t : List Nat), t.length ≤ n →
    wfUnits t = true → wfUnits (escapeAll t) = true := by
  intro n
  induction n with
  | zero =>
    intro t hlen _
    have : t = [] := List.length_eq_zero.mp (by omega)
    subst this
    rfl
  | succ m ih =>
    intro t hlen ht
    match t with
    | [] => rfl
    | [c] =>
      show wfUnits (escapeUnit c ++ escapeAll []) = true
      rw [show escapeAll [] = [] from rfl, List.append_nil]
      exact wfUnits_escapeUnit c (wfUnits_one c ht)
    | c :: c2 :: rest =>
      rcases wfUnits_cons_cases c c2 rest ht with ⟨hsc, ht2⟩ | ⟨hhi, hlo, ht2⟩
      · show wfUnits (escapeUnit c ++ escapeAll (c2 :: rest)) = true
        exact wfUnits_append _ _ (wfUnits_escapeUnit c hsc)
          (ih (c2 :: rest) (by simp at hlen ⊢; omega) ht2)
      · have he1 : escapeUnit c = [c] := escapeUnit_literal c (by omega) (by omega) (by omega)
        have he2 : escapeUnit c2 = [c2] := escapeUnit_literal c2 (by omega) (by omega) (by omega)
        show wfUnits (escapeUnit c ++ (escapeUnit c2 ++ escapeAll rest)) = true
        rw [he1, he2]
        show wfUnits (c :: c2 :: escapeAll rest) = true
        rw [wfUnits_cons_pair c c2 _ hhi hlo]
        exact ih rest (by simp at hlen ⊢; omega) ht2

theorem composePair_some_mark (b m c : Nat) (h : composePair b m = some c) :
    m = 0x301 ∨ m = 0x300 := by
  unfold composePair at h
  split_ifs at h <;> simp_all

theorem composePair_base_none (b m : Nat) (h1 : b ≠ 0x65) (h2 : b ≠ 0x45) (h3 : b ≠ 0x61)
    (h4 : b ≠ 0x41) : composePair b m = none := by
  unfold composePair
  split_ifs <;> simp_all

theorem nfcRun_wf : ∀ f : Nat, ∀ l : List Nat, wfUnits l = true →
    wfUnits (nfcRun f l) = true := by
  intro f
  induction f using Nat.strong_induction_on with
  | _ f ih =>
    intro l hl
    match f, l with
    | 0, l => exact hl
    | g + 1, [] => exact hl
    | g + 1, [c] => exact hl
    | g + 1, c1 :: c2 :: rest =>
      rcases wfUnits_cons_cases c1 c2 rest hl with ⟨hsc, hl2⟩ | ⟨hhi, hlo, hl2⟩
      · cases hcp : composePair c1 c2 with
        | some cc =>
          simp only [nfcRun, hcp]
          apply ih g (by omega)
          have hm := composePair_some_mark c1 c2 cc hcp
          have hcv := composePair_val c1 c2 cc hcp
          have hrest : wfUnits rest = true := by
            rw [wfUnits_cons_scalar c2 rest (by omega)] at hl2
            exact hl2
          rw [wfUnits_cons_scalar cc rest (by omega)]
          exact hrest
        | none =>
          simp only [nfcRun, hcp]
          rw [wfUnits_cons_scalar c1 _ hsc]
          exact ih g (by omega) (c2 :: rest) hl2
      · have hcp : composePair c1 c2 = none :=
          composePair_none_of_not_mark c1 c2 (by omega) (by omega)
        simp only [nfcRun, hcp]
        cases g with
        | zero =>
          show wfUnits (c1 :: c2 :: rest) = true
          exact hl
        | succ g2 =>
          cases rest with
          | nil => exact hl
          | cons r1 r2 =>
            have hcp2 : composePair c2 r1 = none :=
              composePair_base_none c2 r1 (by omega) (by omega) (by omega) (by omega)
            simp only [nfcRun, hcp2]
            rw [wfUnits_cons_pair c1 c2 _ hhi hlo]
            exact ih g2 (by omega) (r1 :: r2) hl2

theorem normalizeNFC_wf (s : List Nat) (h : wfUnits s = true) :
    wfUnits (normalizeNFC s) = true :=
  nfcRun_wf s.length s h

theorem wfUnits_canonicalizeString (s : JSString) (h : wfUnits s = true) :
    wfUnits (canonicalizeString s) = true := by
  rw [canonicalizeString_eq]
  have h1 : wfUnits [0x22] = true := by decide
  have h2 : wfUnits (escapeAll (normalizeNFC s)) = true :=
    wfUnits_escapeAll (normalizeNFC s).length _ le_rfl (normalizeNFC_wf s h)
  exact wfUnits_append _ _ (wfUnits_append _ _ h1 h2) h1

theorem ecmaFormatMag_small (d : Nat) (e : Int) : ∀ x ∈ ecmaFormatMag d e, x < 0x80 := by
  intro x hx
  simp only [ecmaFormatMag] at hx
  split_ifs at hx <;>
    simp only [List.mem_append, List.mem_cons, List.not_mem_nil, or_false] at hx <;>
    (repeat' rcases hx with hx | hx) <;>
    first
      | omega
      | (have h9 := natDigits_digits _ x hx; omega)
      | (have h9 := natDigits_digits _ x (List.mem_of_mem_take hx); omega)
      | (have h9 := natDigits_digits _ x (List.mem_of_mem_drop hx); omega)
      | (have h9 := List.eq_of_mem_replicate hx; omega)

theorem numToString_small (n : JSNumber) : ∀ x ∈ numToString n, x < 0x80 := by
  intro x hx
  have hN : ∀ y ∈ cu "NaN", y < 0x80 := by decide
  have hI : ∀ y ∈ cu "Infinity", y < 0x80 := by decide
  have hNI : ∀ y ∈ cu "-Infinity", y < 0x80 := by decide
  unfold numToString at hx
  cases hnr : normRep n <;> rw [hnr] at hx
  case nan => exact hN x hx
  case posInf => exact hI x hx
  case negInf => exact hNI x hx
  case zero => simp at hx; omega
  case negZero => simp at hx; omega
  case finite neg d e =>
    rcases List.mem_append.mp hx with hmem | hmem
    · cases neg
      · simp at hmem
      · simp at hmem; omega
    · exact ecmaFormatMag_small d e x hmem

theorem joinComma_wf (ps : List (List Nat)) (h : ∀ p ∈ ps, wfUnits p = true) :
    wfUnits (joinComma ps) = true := by
  induction ps with
  | nil => rfl
  | cons p t ih =>
    cases t with
    | nil => simpa [joinComma] using h p (by simp)
    | cons q t2 =>
      show wfUnits (p ++ [0x2C] ++ joinComma (q :: t2)) = true
      refine wfUnits_append _ _ (wfUnits_append _ _ (h p (by simp)) (by decide)) ?_
      exact ih (fun r hr => h r (by simp [List.mem_cons] at hr ⊢; tauto))

theorem mapM_eq_mapME {α β : Type} (f : α → Except CanonError β) :
    ∀ ks : List α, ks.mapM f = mapME f ks := by
  intro ks
  induction ks with
  | nil => rfl
  | cons k t ih =>
    rw [List.mapM_cons, ih]
    conv_rhs => rw [mapME]
    cases hfk : f k with
    | error e => rfl
    | ok b =>
      cases hmt : mapME f t with
      | error e => rfl
      | ok bs => rfl

theorem mapME_ok_mem {α β : Type} (f : α → Except CanonError β) :
    ∀ (ks : List α) (ps : List β), mapME f ks = .ok ps →
      ∀ p ∈ ps, ∃ k ∈ ks, f k = .ok p := by
  intro ks
  induction ks with
  | nil =>
    intro ps h p hp
    cases h
    simp at hp
  | cons k t ih =>
    intro ps h p hp
    unfold mapME at h
    cases hfk : f k with
    | error e => rw [hfk] at h; simp at h
    | ok b =>
      cases hmt : mapME f t with
      | error e => rw [hfk, hmt] at h; simp at h
      | ok bs =>
        rw [hfk, hmt] at h
        cases h
        rcases List.mem_cons.mp hp with rfl | hp2
        · exact ⟨k, by simp, hfk⟩
        · obtain ⟨k2, hk2, hf2⟩ := ih bs hmt p hp2
          exact ⟨k2, by simp [hk2], hf2⟩

theorem except_map_ok {α β : Type} (g : α → β) (x : Except CanonError α) (y : β)
    (h : Except.map g x = .ok y) : ∃ a, x = .ok a ∧ y = g a := by
  cases x with
  | error e => simp [Except.map] at h
  | ok a =>
    refine ⟨a, rfl, ?_⟩
    simp only [Except.map] at h
    exact (Except.ok.inj h).symm

theorem renderPairs_ok_wf (entries : List (JSString × Except CanonError (List Nat)))
    (ks : List JSString) (ts : List Nat)
    (h : renderPairs entries ks = .ok ts)
    (hkey : ∀ K ∈ ks, wfUnits (canonicalizeString K) = true)
    (hval : ∀ kv ∈ entries, ∀ s, kv.2 = .ok s → wfUnits s = true) :
    wfUnits ts = true := by
  unfold renderPairs at h
  rw [mapM_eq_mapME] at h
  split at h
  · rename_i ps heq
    cases h
    have hps : ∀ p ∈ ps, wfUnits p = true := by
      intro p hp
      obtain ⟨K, hK, hfK⟩ := mapME_ok_mem _ ks ps heq p hp
      split at hfK
      · rename_i q hq
        obtain ⟨s, hs, rfl⟩ := except_map_ok _ _ _ hfK
        have hq2 : q ∈ entries := List.mem_of_find?_eq_some hq
        exact wfUnits_append _ _ (wfUnits_append _ _ (hkey K hK) (by decide))
          (hval q hq2 s hs)
      · cases hfK
        exact wfUnits_append _ _ (wfUnits_append _ _ (hkey K hK) (by decide)) (by decide)
    exact wfUnits_append _ _ (wfUnits_append _ _ (by decide) (joinComma_wf ps hps)) (by decide)
  · simp at h

theorem goodO_parts : ∀ (o : JSObj), goodO o = true →
    ∀ kv ∈ JSObj.toList o, wfUnits kv.1 = true ∧ goodV kv.2 = true
  | .nil, _, kv, hkv => by simp [JSObj.toList] at hkv
  | .cons k v rest, hg, kv, hkv => by
    obtain ⟨⟨hk, hv⟩, hrest⟩ : (wfUnits k = true ∧ goodV v = true) ∧ goodO rest = true := by
      simpa [goodO, Bool.and_eq_true] using hg
    rcases List.mem_cons.mp hkv with rfl | h2
    · exact ⟨hk, hv⟩
    · exact goodO_parts rest hrest kv h2

mutual
theorem wfV : ∀ (v : JSValue) (ts : List Nat), goodV v = true →
    canonicalizeValue v = .ok ts → wfUnits ts = true
  | .undef, ts, _, h => by cases h; decide
  | .null, ts, _, h => by cases h; decide
  | .bool b, ts, _, h => by cases b <;> cases h <;> decide
  | .num n, ts, _, h => by
    apply wfUnits_of_small
    intro x hx
    have h2 : canonicalizeNumber n = .ok ts := h
    unfold canonicalizeNumber at h2
    split_ifs at h2 <;>
      first
        | (rw [← h2] at hx; simp at hx; omega)
        | (rw [← h2] at hx; have := numToString_small _ x hx; omega)
        | (rw [← Except.ok.inj h2] at hx; simp at hx; omega)
        | (rw [← Except.ok.inj h2] at hx; have := numToString_small _ x hx; omega)
        | simp at h2
  | .str s, ts, hg, h => by
    cases h
    exact wfUnits_canonicalizeString s (by simpa [goodV] using hg)
  | .arr xs, ts, hg, h => by
    have hga : goodA xs = true := by simpa [goodV] using hg
    have h2 : (match canonicalizeArrayElems xs with
      | .ok elems => Except.ok ([0x5B] ++ joinComma elems ++ [0x5D])
      | .error e => (Except.error e : Except CanonError (List Nat))) = .ok ts := h
    split at h2
    · rename_i ss heq
      cases h2
      exact wfUnits_append _ _
        (wfUnits_append _ _ (by decide) (joinComma_wf ss (wfElems xs ss hga heq)))
        (by decide)
    · simp at h2
  | .obj o, ts, hg, h => by
    have hparts : goodO o = true := by
      simp only [goodV, Bool.and_eq_true] at hg
      exact hg.1
    have h2 : canonicalizeObjectFromEntries (canonicalizeObjEntries o) = .ok ts := h
    unfold canonicalizeObjectFromEntries at h2
    refine renderPairs_ok_wf _ _ _ h2 ?_ (fun kv hkv s hs => wfEntries o hparts kv hkv s hs)
    intro K hK
    have hKmem : K ∈ ((canonicalizeObjEntries o).map Prod.fst).map normalizeNFC :=
      (sortKeys_perm _).mem_iff.mp hK
    rw [canonicalizeObjEntries_keys o] at hKmem
    obtain ⟨k0, hk0, rfl⟩ := List.mem_map.mp hKmem
    obtain ⟨kv, hkv, rfl⟩ := List.mem_map.mp hk0
    exact wfUnits_canonicalizeString _ (normalizeNFC_wf _ (goodO_parts o hparts kv hkv).1)
  | .fn, ts, hg, h => by simp [goodV] at hg
  | .sym, ts, hg, h => by simp [goodV] at hg
theorem wfElems : ∀ (xs : JSArr) (ss : List (List Nat)), goodA xs = true →
    canonicalizeArrayElems xs = .ok ss → ∀ s ∈ ss, wfUnits s = true
  | .nil, ss, _, h => by cases h; intro s hs; simp at hs
  | .cons v rest, ss, hg, h => by
    obtain ⟨hv, hrest⟩ : goodV v = true ∧ goodA rest = true := by
      simpa [goodA, Bool.and_eq_true] using hg
    have h2 : (match canonicalizeValue v, canonicalizeArrayElems rest with
      | .ok s, .ok ss2 => Except.ok (s :: ss2)
      | .error e, _ => (Except.error e : Except CanonError (List (List Nat)))
      | _, .error e => Except.error e) = .ok ss := h
    cases hcv : canonicalizeValue v with
    | error e => rw [hcv] at h2; simp at h2
    | ok s1 =>
      cases hcr : canonicalizeArrayElems rest with
      | error e => rw [hcv, hcr] at h2; simp at h2
      | ok ss2 =>
        rw [hcv, hcr] at h2
        cases h2
        intro s hs
        rcases List.mem_cons.mp hs with rfl | hs2
        · exact wfV v s hv hcv
        · exact wfElems rest ss2 hrest hcr s hs2
theorem wfEntries : ∀ (o : JSObj), goodO o = true →
    ∀ kv ∈ canonicalizeObjEntries o, ∀ s, kv.2 = .ok s → wfUnits s = true
  | .nil, _, kv, hkv => by simp [canonicalizeObjEntries] at hkv
  | .cons k v rest, hg, kv, hkv => by
    obtain ⟨⟨hk, hv⟩, hrest⟩ : (wfUnits k = true ∧ goodV v = true) ∧ goodO rest = true := by
      simpa [goodO, Bool.and_eq_true] using hg
    rcases List.mem_cons.mp hkv with rfl | h2
    · intro s hs
      exact wfV v s hv hs
    · exact wfEntries rest hrest kv h2
end

/-! Heads of canonical texts, whitespace, and literal-word helpers for the
parser round trip. -/

theorem ecmaFormatMag_head (d : Nat) (e : Int) (hd : d ≠ 0) :
    ∃ c ts2, ecmaFormatMag d e = c :: ts2 ∧ 0x30 ≤ c ∧ c ≤ 0x39 := by
  obtain ⟨c, ts, hds, hc1, hc2⟩ := natDigits_head d hd
  simp only [ecmaFormatMag]
  split_ifs with h1 h2 h3
  · rw [hds]
    exact ⟨c, _, rfl, by omega, by omega⟩
  · obtain ⟨m, hm⟩ : ∃ m, (e + ((natDigits d).length : Int)).toNat = m + 1 :=
      ⟨(e + ((natDigits d).length : Int)).toNat - 1, by omega⟩
    rw [hm, hds, List.take_succ_cons, List.drop_succ_cons]
    exact ⟨c, _, rfl, by omega, by omega⟩
  · exact ⟨0x30, _, rfl, by omega, by omega⟩
  all_goals first
    | (rw [hds]; exact ⟨c, _, rfl, by omega, by omega⟩)
    | (rw [hds, List.take_succ_cons, List.take_zero]
       exact ⟨c, _, rfl, by omega, by omega⟩)

theorem normRep_isFinite (n : JSNumber) (h : numIsFinite n = true) :
    numIsFinite (normRep n) = true := by
  cases n with
  | nan => simp [numIsFinite] at h
  | posInf => simp [numIsFinite] at h
  | negInf => simp [numIsFinite] at h
  | zero => rfl
  | negZero => rfl
  | finite neg d e =>
    simp only [normRep]
    split_ifs <;> rfl

theorem numToString_head (n : JSNumber) (hfin : numIsFinite n = true) :
    ∃ c ts2, numToString n = c :: ts2 ∧ (c = 0x2D ∨ (0x30 ≤ c ∧ c ≤ 0x39)) := by
  unfold numToString
  cases n with
  | nan => simp [numIsFinite] at hfin
  | posInf => simp [numIsFinite] at hfin
  | negInf => simp [numIsFinite] at hfin
  | zero => exact ⟨0x30, [], rfl, by omega⟩
  | negZero => exact ⟨0x30, [], rfl, by omega⟩
  | finite neg d e =>
    by_cases hd : d = 0
    · subst hd
      simp only [normRep, if_pos rfl]
      cases neg <;> exact ⟨0x30, [], rfl, by omega⟩
    · obtain ⟨d2, j, hnr, heq, h10, hne⟩ := normRep_finite neg d e hd
      rw [hnr]
      obtain ⟨c, ts2, hmag, hc1, hc2⟩ := ecmaFormatMag_head d2 (e + j) hne
      cases neg
      · exact ⟨c, ts2, by simpa using hmag, by omega⟩
      · exact ⟨0x2D, ecmaFormatMag d2 (e + j), rfl, by omega⟩

theorem truncN_finite (n : JSNumber) (h : numIsFinite n = true) :
    numIsFinite (truncN n) = true := by
  cases n <;> simp_all [truncN, numIsFinite]
  split_ifs <;> first
    | simp [numIsFinite]
    | (apply normRep_isFinite; simp [numIsFinite])

theorem canonicalizeNumber_head (n : JSNumber) (ts : List Nat)
    (h : canonicalizeNumber n = .ok ts) :
    ∃ c ts2, ts = c :: ts2 ∧ (c = 0x2D ∨ (0x30 ≤ c ∧ c ≤ 0x39)) := by
  have hfin : numIsFinite n = true := by
    cases hf : numIsFinite n
    · unfold canonicalizeNumber at h
      rw [hf] at h
      simp at h
    · rfl
  have hforms : ts = [0x30] ∨ ts = numToString n ∨ ts = numToString (truncN n) := by
    unfold canonicalizeNumber at h
    split_ifs at h <;>
      first
        | (left; exact h.symm)
        | (left; exact (Except.ok.inj h).symm)
        | (right; left; exact h.symm)
        | (right; left; exact (Except.ok.inj h).symm)
        | (right; right; exact h.symm)
        | (right; right; exact (Except.ok.inj h).symm)
        | simp at h
  rcases hforms with rfl | rfl | rfl
  · exact ⟨0x30, [], rfl, by omega⟩
  · exact numToString_head n hfin
  · exact numToString_head (truncN n) (truncN_finite n hfin)

theorem canonicalizeValue_head (v : JSValue) (ts : List Nat)
    (h : canonicalizeValue v = .ok ts) :
    ∃ c ts2, ts = c :: ts2 ∧ goodHead c = true := by
  cases v with
  | undef => cases h; exact ⟨0x6E, _, rfl, by decide⟩
  | null => cases h; exact ⟨0x6E, _, rfl, by decide⟩
  | bool b =>
    cases b
    · cases h; exact ⟨0x66, _, rfl, by decide⟩
    · cases h; exact ⟨0x74, _, rfl, by decide⟩
  | num n =>
    obtain ⟨c, ts2, hts, hc⟩ := canonicalizeNumber_head n ts h
    refine ⟨c, ts2, hts, ?_⟩
    simp only [goodHead, isDigit, Bool.or_eq_true, beq_iff_eq, Bool.and_eq_true,
      decide_eq_true_eq]
    omega
  | str s =>
    cases h
    exact ⟨0x22, escapeAll (normalizeNFC s) ++ [0x22],
      by rw [canonicalizeString_eq]; rfl, by decide⟩
  | arr xs =>
    have h2 : (match canonicalizeArrayElems xs with
      | .ok elems => Except.ok ([0x5B] ++ joinComma elems ++ [0x5D])
      | .error e => (Except.error e : Except CanonError (List Nat))) = .ok ts := h
    split at h2
    · cases h2
      exact ⟨0x5B, _, rfl, by decide⟩
    · simp at h2
  | obj o =>
    have h2 : canonicalizeObjectFromEntries (canonicalizeObjEntries o) = .ok ts := h
    unfold canonicalizeObjectFromEntries renderPairs at h2
    split at h2
    · cases h2
      exact ⟨0x7B, _, rfl, by decide⟩
    · simp at h2
  | fn => simp [canonicalizeValue] at h
  | sym => simp [canonicalizeValue] at h

theorem goodHead_not_ws (c : Nat) (h : goodHead c = true) : isWs c = false := by
  simp only [goodHead, isDigit, Bool.or_eq_true, beq_iff_eq, Bool.and_eq_true,
    decide_eq_true_eq] at h
  by_contra hne
  have ht : isWs c = true := by
    cases hb : isWs c
    · exact absurd hb hne
    · rfl
  simp only [isWs, Bool.or_eq_true, beq_iff_eq] at ht
  omega

theorem skipWs_cons_of_not_ws (c : Nat) (t : List Nat) (h : isWs c = false) :
    skipWs (c :: t) = c :: t := by
  simp [skipWs, h]

theorem dropLit_self : ∀ (a rest : List Nat), dropLit a (a ++ rest) = some rest := by
  intro a
  induction a with
  | nil => intro rest; rfl
  | cons c t ih =>
    intro rest
    simp [dropLit, ih]

theorem hexVal_hexDigit : ∀ m, m < 16 → hexVal (hexDigit m) = some m := by decide

theorem parseStringBody_cons_literal (c : Nat) (X : List Nat) (h22 : ¬c = 0x22)
    (h5c : ¬c = 0x5C) (hge : ¬ c < 0x20) :
    parseStringBody (c :: X) = (parseStringBody X).map (fun p => (c :: p.1, p.2)) := by
  rw [parseStringBody.eq_def]
  simp only [if_neg h22, if_neg h5c, if_neg hge]

theorem parseStringBody_escape : ∀ (t rest : List Nat),
    parseStringBody (escapeAll t ++ (0x22 :: rest)) = some (t, rest) := by
  intro t
  induction t with
  | nil =>
    intro rest
    rw [show escapeAll [] ++ (0x22 :: rest) = 0x22 :: rest from rfl, parseStringBody.eq_def]
    norm_num
  | cons c t2 ih =>
    intro rest
    rw [show escapeAll (c :: t2) ++ (0x22 :: rest)
        = escapeUnit c ++ (escapeAll t2 ++ (0x22 :: rest)) from by
      simp [escapeAll, List.append_assoc]]
    by_cases h22 : c = 0x22
    · subst h22
      rw [show escapeUnit 0x22 = [0x5C, 0x22] from by decide, List.cons_append,
        List.cons_append, List.nil_append, parseStringBody.eq_def]
      norm_num [ih]
    · by_cases h5c : c = 0x5C
      · subst h5c
        rw [show escapeUnit 0x5C = [0x5C, 0x5C] from by decide, List.cons_append,
          List.cons_append, List.nil_append, parseStringBody.eq_def]
        norm_num [ih]
      · by_cases h8 : c = 0x08
        · subst h8
          rw [show escapeUnit 0x08 = [0x5C, 0x62] from by decide, List.cons_append,
            List.cons_append, List.nil_append, parseStringBody.eq_def]
          norm_num [ih]
        · by_cases hC : c = 0x0C
          · subst hC
            rw [show escapeUnit 0x0C = [0x5C, 0x66] from by decide, List.cons_append,
              List.cons_append, List.nil_append, parseStringBody.eq_def]
            norm_num [ih]
          · by_cases hA : c = 0x0A
            · subst hA
              rw [show escapeUnit 0x0A = [0x5C, 0x6E] from by decide, List.cons_append,
                List.cons_append, List.nil_append, parseStringBody.eq_def]
              norm_num [ih]
            · by_cases hD : c = 0x0D
              · subst hD
                rw [show escapeUnit 0x0D = [0x5C, 0x72] from by decide, List.cons_append,
                  List.cons_append, List.nil_append, parseStringBody.eq_def]
                norm_num [ih]
              · by_cases h9 : c = 0x09
                · subst h9
                  rw [show escapeUnit 0x09 = [0x5C, 0x74] from by decide, List.cons_append,
                    List.cons_append, List.nil_append, parseStringBody.eq_def]
                  norm_num [ih]
                · by_cases hctl : c < 0x20
                  · have hesc : escapeUnit c = [0x5C, 0x75, hexDigit (c / 4096 % 16),
                        hexDigit (c / 256 % 16), hexDigit (c / 16 % 16), hexDigit (c % 16)] := by
                      simp [escapeUnit, toHexPad4, h22, h5c, h8, hC, hA, hD, h9, hctl]
                    have k1 := hexVal_hexDigit (c / 4096 % 16) (by omega)
                    have k2 := hexVal_hexDigit (c / 256 % 16) (by omega)
                    have k3 := hexVal_hexDigit (c / 16 % 16) (by omega)
                    have k4 := hexVal_hexDigit (c % 16) (by omega)
                    have hV : (c / 4096 % 16) * 4096 + (c / 256 % 16) * 256 +
                        (c / 16 % 16) * 16 + c % 16 = c := by omega
                    rw [hesc, List.cons_append, List.cons_append, List.cons_append,
                      List.cons_append, List.cons_append, List.cons_append, List.nil_append,
                      parseStringBody.eq_def]
                    norm_num [k1, k2, k3, k4, ih, hV]
                  · rw [escapeUnit_literal c (by omega) h22 h5c, List.cons_append,
                      List.nil_append, parseStringBody_cons_literal c _ h22 h5c (by omega), ih]
                    rfl

/-! Reading a JSON number literal back from its canonical text. -/

theorem takeDigits_cons_not (c : Nat) (t : List Nat) (h : isDigit c = false) :
    takeDigits (c :: t) = ([], c :: t) := by
  simp [takeDigits, h]

theorem takeDigits_append (ds : List Nat) (r : List Nat)
    (hds : ∀ c ∈ ds, isDigit c = true)
    (hr : ∀ c t, r = c :: t → isDigit c = false) :
    takeDigits (ds ++ r) = (ds, r) := by
  induction ds with
  | nil =>
    cases r with
    | nil => rfl
    | cons c t => simpa using takeDigits_cons_not c t (hr c t rfl)
  | cons d ds2 ih =>
    have hd : isDigit d = true := hds d (by simp)
    have ih2 := ih (fun c hc => hds c (List.mem_cons_of_mem d hc))
    simp [takeDigits, hd, ih2]

theorem numberStop_head (r : List Nat) (h : numberStop r = true) :
    ∀ c t, r = c :: t → isDigit c = false ∧ c ≠ 0x2E ∧ c ≠ 0x65 ∧ c ≠ 0x45 := by
  intro c t hr
  subst hr
  have h2 : (isDigit c || c == 0x2E || c == 0x65 || c == 0x45) = false := by
    simpa [numberStop] using h
  simp only [Bool.or_eq_false_iff, beq_eq_false_iff_ne, ne_eq] at h2
  exact ⟨h2.1.1.1, h2.1.1.2, h2.1.2, h2.2⟩

theorem head_ne_digit (a : Nat) (ha : isDigit a = false) (X : List Nat) :
    ∀ c t, (a :: X) = c :: t → isDigit c = false := by
  intro c t h
  rw [List.cons.injEq] at h
  rw [← h.1]
  exact ha

theorem head_ne_lit (a b : Nat) (hab : a ≠ b) (X : List Nat) : ∀ t, (a :: X) ≠ b :: t := by
  intro t h
  rw [List.cons.injEq] at h
  exact hab h.1

theorem natDigits_isDigit (m : Nat) : ∀ c ∈ natDigits m, isDigit c = true := by
  intro c hc
  have h := natDigits_digits m c hc
  simp [isDigit]
  omega

theorem replicate_digits (k : Nat) : ∀ c ∈ List.replicate k 0x30, isDigit c = true := by
  intro c hc
  rw [List.eq_of_mem_replicate hc]
  rfl

theorem foldDigits_replicate (k : Nat) :
    foldDigits (List.replicate k 0x30) = 0 := by
  induction k with
  | zero => rfl
  | succ m ih =>
    have h : List.replicate (m + 1) 0x30 = [0x30] ++ List.replicate m 0x30 := by
      simp [List.replicate_succ]
    rw [h, foldDigits_append, ih]
    simp [foldDigits, digitVal]

theorem parseFrac_no_dot (s : List Nat) (h : ∀ t, s ≠ 0x2E :: t) :
    parseFrac s = some ([], s) := by
  rw [parseFrac.eq_def]
  split
  · rename_i t
    exact absurd rfl (h t)
  · rfl

theorem parseFrac_dot (ds r : List Nat) (hds : ∀ c ∈ ds, isDigit c = true)
    (hne : ds ≠ [])
    (hr : ∀ c t, r = c :: t → isDigit c = false) :
    parseFrac (0x2E :: (ds ++ r)) = some (ds, r) := by
  simp only [parseFrac, takeDigits_append ds r hds hr]
  simp [hne]

theorem parseExp_stop (r : List Nat)
    (hr : ∀ c t, r = c :: t → c ≠ 0x65 ∧ c ≠ 0x45) :
    parseExp r = some (0, r) := by
  cases r with
  | nil => rfl
  | cons c t =>
    obtain ⟨h1, h2⟩ := hr c t rfl
    simp [parseExp, h1, h2]

theorem parseExp_e (ex : Int) (r : List Nat)
    (hr : ∀ c t, r = c :: t → isDigit c = false) :
    parseExp (0x65 :: ((if ex < 0 then [0x2D] else [0x2B]) ++ (natDigits ex.natAbs ++ r)))
      = some (ex, r) := by
  have htd := takeDigits_append (natDigits ex.natAbs) r (natDigits_isDigit _) hr
  by_cases hneg : ex < 0
  · rw [if_pos hneg]
    simp [parseExp, htd, natDigits_ne_nil, foldDigits_natDigits]
    rw [abs_of_nonpos (show ex ≤ 0 from by omega)]
    ring
  · rw [if_neg hneg]
    simp [parseExp, htd, natDigits_ne_nil, foldDigits_natDigits]
    omega

theorem normRep_mul_pow (neg : Bool) (d k : Nat) (e : Int) (hd : d ≠ 0) (h10 : d % 10 ≠ 0) :
    normRep (.finite neg (d * 10 ^ k) e) = .finite neg d (e + k) := by
  have hD : d * 10 ^ k ≠ 0 := by positivity
  simp only [normRep, if_neg hD]
  rw [stripZeros_mul_pow d hd h10 k (d * 10 ^ k) le_rfl]

theorem parseNumber_digits (b : Bool) (intDs : List Nat) (r2 : List Nat)
    (hds : ∀ c ∈ intDs, isDigit c = true) (hne : intDs ≠ [])
    (hlead : intDs.length = 1 ∨ intDs.headI ≠ 0x30)
    (hr2 : ∀ c t, r2 = c :: t → isDigit c = false) :
    parseNumber ((if b then [0x2D] else []) ++ (intDs ++ r2)) =
      (match parseFrac r2 with
      | none => none
      | some (fracDs, rr) =>
        match parseExp rr with
        | none => none
        | some (ex2, r3) => some (mkNumber b intDs fracDs ex2, r3)) := by
  have htd := takeDigits_append intDs r2 hds hr2
  have hcond : ¬(intDs.length > 1 ∧ intDs.headI = 0x30) := by
    rcases hlead with h | h
    · omega
    · exact fun hx => h hx.2
  cases b with
  | true =>
    simp only [if_pos, List.cons_append, List.nil_append, parseNumber, htd]
    rw [if_neg hne, if_neg hcond]
  | false =>
    obtain ⟨c0, t0, rfl⟩ := List.exists_cons_of_ne_nil hne
    have hc0 : isDigit c0 = true := hds c0 (by simp)
    have hc0' : ¬ c0 = 0x2D := by
      simp [isDigit] at hc0
      omega
    simp only [if_neg (Bool.false_ne_true ∘ id), List.nil_append]
    simp only [parseNumber, List.cons_append, if_neg hc0']
    rw [show ((c0 :: (t0 ++ r2))) = ((c0 :: t0) ++ r2) from rfl, htd]
    rw [if_neg hne, if_neg hcond]

theorem parseNumber_zero (rest : List Nat) (hstop : numberStop rest = true) :
    parseNumber (0x30 :: rest) = some (.zero, rest) := by
  rw [show (0x30 :: rest) = (if (false : Bool) then [0x2D] else []) ++ ([0x30] ++ rest) from rfl]
  rw [parseNumber_digits false [0x30] rest
    (by intro c hc; simp at hc; rw [hc]; rfl)
    (by simp) (Or.inl rfl) (fun c t ht => (numberStop_head rest hstop c t ht).1)]
  simp only [parseFrac_no_dot rest
      (fun t ht => ((numberStop_head rest hstop 0x2E t ht).2.1) rfl),
    parseExp_stop rest
      (fun c t ht => ⟨(numberStop_head rest hstop c t ht).2.2.1,
        (numberStop_head rest hstop c t ht).2.2.2⟩)]
  rw [show mkNumber false [0x30] [] 0 = .zero from by decide]

theorem parseNumber_mag (neg : Bool) (d : Nat) (e : Int) (rest : List Nat)
    (hd : d ≠ 0) (h10 : d % 10 ≠ 0) (hstop : numberStop rest = true) :
    parseNumber (((if neg then [0x2D] else []) ++ ecmaFormatMag d e) ++ rest) =
      some (.finite neg d e, rest) := by
  have hstopD : ∀ c t, rest = c :: t → isDigit c = false :=
    fun c t h => (numberStop_head rest hstop c t h).1
  have hstopDot : ∀ t, rest ≠ 0x2E :: t :=
    fun t h => ((numberStop_head rest hstop 0x2E t h).2.1) rfl
  have hstopE : ∀ c t, rest = c :: t → c ≠ 0x65 ∧ c ≠ 0x45 :=
    fun c t h => ⟨(numberStop_head rest hstop c t h).2.2.1,
      (numberStop_head rest hstop c t h).2.2.2⟩
  obtain ⟨c1, ds1, hds, hc1a, hc1b⟩ := natDigits_head d hd
  have hk1 : 1 ≤ (natDigits d).length := natDigits_length_pos d
  simp only [ecmaFormatMag]
  by_cases h1 : 0 ≤ e ∧ e + ((natDigits d).length : Int) ≤ 21
  · rw [if_pos h1, List.append_assoc,
      parseNumber_digits neg (natDigits d ++ List.replicate e.toNat 0x30) rest
        (by
          intro c hc
          rcases List.mem_append.mp hc with h | h
          · exact natDigits_isDigit d c h
          · exact replicate_digits _ c h)
        (by simp [natDigits_ne_nil d])
        (Or.inr (by
          rw [hds, List.cons_append]
          simp only [List.headI]
          omega))
        hstopD]
    simp only [parseFrac_no_dot rest hstopDot, parseExp_stop rest hstopE]
    have hfd : foldDigits (natDigits d ++ List.replicate e.toNat 0x30) = d * 10 ^ e.toNat := by
      rw [foldDigits_append, foldDigits_natDigits, foldDigits_replicate, List.length_replicate]
      ring
    have hDne : d * 10 ^ e.toNat ≠ 0 := by positivity
    have hmk : mkNumber neg (natDigits d ++ List.replicate e.toNat 0x30) [] 0
        = .finite neg d e := by
      unfold mkNumber
      rw [show foldDigits ([] : List Nat) = 0 from rfl]
      simp only [List.length_nil, pow_zero, mul_one, Nat.add_zero, add_zero,
        Nat.cast_zero, sub_zero]
      rw [hfd, if_neg hDne, normRep_mul_pow neg d e.toNat 0 hd h10]
      congr 1
      omega
    rw [hmk]
  · rw [if_neg h1]
    by_cases h2 : 0 < e + ((natDigits d).length : Int) ∧ e + ((natDigits d).length : Int) ≤ 21
    · rw [if_pos h2]
      have hpos : 1 ≤ (e + ((natDigits d).length : Int)).toNat := by omega
      have hkn : (e + ((natDigits d).length : Int)).toNat < (natDigits d).length := by omega
      rw [List.append_assoc,
        show ((natDigits d).take (e + ((natDigits d).length : Int)).toNat ++ [0x2E] ++
            (natDigits d).drop (e + ((natDigits d).length : Int)).toNat) ++ rest
          = (natDigits d).take (e + ((natDigits d).length : Int)).toNat ++
            (0x2E :: ((natDigits d).drop (e + ((natDigits d).length : Int)).toNat ++ rest))
          from by simp,
        parseNumber_digits neg _ _
          (fun c hc => natDigits_isDigit d c (List.take_subset _ _ hc))
          (by
            apply List.ne_nil_of_length_pos
            rw [List.length_take]
            omega)
          (Or.inr (by
            obtain ⟨m2, hm2⟩ : ∃ m2, (e + ((natDigits d).length : Int)).toNat = m2 + 1 :=
              ⟨(e + ((natDigits d).length : Int)).toNat - 1, by omega⟩
            rw [hm2, hds, List.take_succ_cons]
            simp only [List.headI]
            omega))
          (head_ne_digit 0x2E rfl _)]
      simp only [parseFrac_dot ((natDigits d).drop (e + ((natDigits d).length : Int)).toNat) rest
          (fun c hc => natDigits_isDigit d c (List.drop_subset _ _ hc))
          (by
            apply List.ne_nil_of_length_pos
            rw [List.length_drop]
            omega)
          hstopD,
        parseExp_stop rest hstopE]
      have hmk : mkNumber neg ((natDigits d).take (e + ((natDigits d).length : Int)).toNat)
          ((natDigits d).drop (e + ((natDigits d).length : Int)).toNat) 0 = .finite neg d e := by
        unfold mkNumber
        rw [show foldDigits ((natDigits d).take (e + ((natDigits d).length : Int)).toNat) *
            10 ^ ((natDigits d).drop (e + ((natDigits d).length : Int)).toNat).length +
            foldDigits ((natDigits d).drop (e + ((natDigits d).length : Int)).toNat) = d from by
          rw [← foldDigits_append, List.take_append_drop, foldDigits_natDigits]]
        rw [if_neg hd, normRep_good neg d _ hd h10]
        congr 1
        rw [List.length_drop]
        omega
      rw [hmk]
    · rw [if_neg h2]
      by_cases h3 : -6 < e + ((natDigits d).length : Int) ∧ e + ((natDigits d).length : Int) ≤ 0
      · rw [if_pos h3]
        rw [List.append_assoc,
          show ([0x30, 0x2E] ++
              List.replicate (-(e + ((natDigits d).length : Int))).toNat 0x30 ++ natDigits d)
              ++ rest
            = [0x30] ++ (0x2E ::
              ((List.replicate (-(e + ((natDigits d).length : Int))).toNat 0x30 ++ natDigits d)
                ++ rest)) from by simp,
          parseNumber_digits neg [0x30] _
            (by
              intro c hc
              simp at hc
              rw [hc]
              rfl)
            (by simp) (Or.inl rfl) (head_ne_digit 0x2E rfl _)]
        simp only [parseFrac_dot
            (List.replicate (-(e + ((natDigits d).length : Int))).toNat 0x30 ++ natDigits d) rest
            (by
              intro c hc
              rcases List.mem_append.mp hc with h | h
              · exact replicate_digits _ c h
              · exact natDigits_isDigit d c h)
            (by simp [natDigits_ne_nil d])
            hstopD,
          parseExp_stop rest hstopE]
        have hmk : mkNumber neg [0x30]
            (List.replicate (-(e + ((natDigits d).length : Int))).toNat 0x30 ++ natDigits d) 0
            = .finite neg d e := by
          unfold mkNumber
          rw [show foldDigits [0x30] = 0 from rfl,
            show foldDigits
              (List.replicate (-(e + ((natDigits d).length : Int))).toNat 0x30 ++ natDigits d)
              = d from by
                rw [foldDigits_append, foldDigits_replicate, foldDigits_natDigits]
                ring,
            zero_mul, zero_add, if_neg hd, normRep_good neg d _ hd h10]
          congr 1
          rw [List.length_append, List.length_replicate]
          omega
        rw [hmk]
      · rw [if_neg h3]
        by_cases hk : (natDigits d).length = 1
        · rw [if_pos hk]
          rw [List.append_assoc,
            show (natDigits d ++ ([0x65] ++
                (if e + ((natDigits d).length : Int) - 1 < 0 then [0x2D] else [0x2B]) ++
                natDigits (e + ((natDigits d).length : Int) - 1).natAbs)) ++ rest
              = natDigits d ++ (0x65 ::
                ((if e + ((natDigits d).length : Int) - 1 < 0 then [0x2D] else [0x2B]) ++
                  (natDigits (e + ((natDigits d).length : Int) - 1).natAbs ++ rest)))
              from by simp,
            parseNumber_digits neg (natDigits d) _
              (natDigits_isDigit d) (natDigits_ne_nil d) (Or.inl hk)
              (head_ne_digit 0x65 rfl _)]
          simp only [parseFrac_no_dot _ (head_ne_lit 0x65 0x2E (by omega) _),
            parseExp_e (e + ((natDigits d).length : Int) - 1) rest hstopD]
          have hmk : mkNumber neg (natDigits d) [] (e + ((natDigits d).length : Int) - 1)
              = .finite neg d e := by
            unfold mkNumber
            rw [show foldDigits ([] : List Nat) = 0 from rfl, foldDigits_natDigits]
            simp only [List.length_nil, pow_zero, mul_one, Nat.add_zero, add_zero,
              Nat.cast_zero, sub_zero]
            rw [if_neg hd, normRep_good neg d _ hd h10]
            congr 1
            omega
          rw [hmk]
        · rw [if_neg hk]
          rw [List.append_assoc,
            show ((natDigits d).take 1 ++ [0x2E] ++ (natDigits d).drop 1 ++ ([0x65] ++
                (if e + ((natDigits d).length : Int) - 1 < 0 then [0x2D] else [0x2B]) ++
                natDigits (e + ((natDigits d).length : Int) - 1).natAbs)) ++ rest
              = (natDigits d).take 1 ++ (0x2E :: ((natDigits d).drop 1 ++ (0x65 ::
                ((if e + ((natDigits d).length : Int) - 1 < 0 then [0x2D] else [0x2B]) ++
                  (natDigits (e + ((natDigits d).length : Int) - 1).natAbs ++ rest)))))
              from by simp,
            parseNumber_digits neg ((natDigits d).take 1) _
              (fun c hc => natDigits_isDigit d c (List.take_subset _ _ hc))
              (by
                apply List.ne_nil_of_length_pos
                rw [List.length_take]
                omega)
              (Or.inl (by
                rw [List.length_take]
                omega))
              (head_ne_digit 0x2E rfl _)]
          simp only [parseFrac_dot ((natDigits d).drop 1)
              (0x65 :: ((if e + ((natDigits d).length : Int) - 1 < 0 then [0x2D] else [0x2B]) ++
                (natDigits (e + ((natDigits d).length : Int) - 1).natAbs ++ rest)))
              (fun c hc => natDigits_isDigit d c (List.drop_subset _ _ hc))
              (by
                apply List.ne_nil_of_length_pos
                rw [List.length_drop]
                omega)
              (head_ne_digit 0x65 rfl _),
            parseExp_e (e + ((natDigits d).length : Int) - 1) rest hstopD]
          have hmk : mkNumber neg ((natDigits d).take 1) ((natDigits d).drop 1)
              (e + ((natDigits d).length : Int) - 1) = .finite neg d e := by
            unfold mkNumber
            rw [show foldDigits ((natDigits d).take 1) * 10 ^ ((natDigits d).drop 1).length +
                foldDigits ((natDigits d).drop 1) = d from by
              rw [← foldDigits_append, List.take_append_drop, foldDigits_natDigits]]
            rw [if_neg hd, normRep_good neg d _ hd h10]
            congr 1
            rw [List.length_drop]
            omega
          rw [hmk]

theorem numEqB_finite (m : JSNumber) (neg : Bool) (d : Nat) (e : Int)
    (hd : d ≠ 0) (h10 : d % 10 ≠ 0)
    (h : numEqB m (.finite neg d e) = true) :
    normRep m = .finite neg d e := by
  unfold numEqB at h
  rw [normRep_good neg d e hd h10] at h
  cases hm : normRep m <;> rw [hm] at h <;> simp at h
  obtain ⟨rfl, rfl, rfl⟩ := h
  rfl

theorem canonicalizeNumber_finite (neg : Bool) (d : Nat) (e : Int)
    (hd : d ≠ 0) (h10 : d % 10 ≠ 0) :
    canonicalizeNumber (.finite neg d e) =
      .ok ((if neg then [0x2D] else []) ++ ecmaFormatMag d e) := by
  have hts : numToString (.finite neg d e) = (if neg then [0x2D] else []) ++ ecmaFormatMag d e := by
    unfold numToString
    rw [normRep_good neg d e hd h10]
  rw [← hts]
  unfold canonicalizeNumber
  split_ifs with h1 h2 h3 h4
  · exact absurd h1 (by simp [numIsFinite])
  · exact absurd h2 (by simp [numIsNegZero, hd])
  · rfl
  · have h4' : numEqB (truncN (.finite neg d e)) (.finite neg d e) = true :=
      ((Bool.and_eq_true _ _).mp h4).1
    have hnr := numEqB_finite _ neg d e hd h10 h4'
    have heq : numToString (truncN (.finite neg d e)) = numToString (.finite neg d e) := by
      unfold numToString
      rw [hnr, normRep_good neg d e hd h10]
    rw [heq]
  · rfl

theorem parseNumber_canonical (n : JSNumber) (ts rest : List Nat)
    (hg : goodNum n = true) (h : canonicalizeNumber n = .ok ts)
    (hstop : numberStop rest = true) :
    ∃ n2, parseNumber (ts ++ rest) = some (n2, rest) ∧ canonicalizeNumber n2 = .ok ts := by
  cases n with
  | nan => simp [goodNum] at hg
  | posInf => simp [goodNum] at hg
  | negInf => simp [goodNum] at hg
  | zero =>
    have hts : ts = [0x30] := by
      rw [show canonicalizeNumber .zero = .ok [0x30] from by decide] at h
      exact (Except.ok.inj h).symm
    subst hts
    exact ⟨.zero, parseNumber_zero rest hstop, by decide⟩
  | negZero =>
    have hts : ts = [0x30] := by
      rw [show canonicalizeNumber .negZero = .ok [0x30] from by decide] at h
      exact (Except.ok.inj h).symm
    subst hts
    exact ⟨.zero, parseNumber_zero rest hstop, by decide⟩
  | finite neg d e =>
    have hdd : d ≠ 0 ∧ d % 10 ≠ 0 := by
      simpa [goodNum] using hg
    rw [canonicalizeNumber_finite neg d e hdd.1 hdd.2] at h
    have hts := Except.ok.inj h
    refine ⟨.finite neg d e, ?_, ?_⟩
    · rw [← hts]
      exact parseNumber_mag neg d e rest hdd.1 hdd.2 hstop
    · rw [canonicalizeNumber_finite neg d e hdd.1 hdd.2, hts]

/-! Objects rebuilt from parsed members: with distinct keys, `JSON.parse`'s
assignment loop reproduces the member list, and re-rendering a normalized,
sorted, duplicate-free member list reproduces the canonical text. -/

theorem jobj_toList : ∀ l : List (JSString × JSValue), JSObj.toList (jobj l) = l
  | [] => rfl
  | (k, v) :: rest => by
    simp [jobj, JSObj.toList, jobj_toList rest]

theorem nodupKeys_iff : ∀ l : List JSString, nodupKeys l = true ↔ l.Nodup := by
  intro l
  induction l with
  | nil => simp [nodupKeys]
  | cons k ks ih =>
    simp only [nodupKeys, Bool.and_eq_true, Bool.not_eq_true', List.nodup_cons, ← ih]
    constructor
    · intro h
      refine ⟨?_, h.2⟩
      intro hmem
      simp at h
      exact h.1 hmem
    · intro h
      refine ⟨?_, h.2⟩
      cases hc : ks.contains k
      · rfl
      · exact absurd (by simpa using hc) h.1

theorem assignPair_jobj : ∀ (L : List (JSString × JSValue)) (k : JSString) (v : JSValue),
    k ∉ L.map Prod.fst → assignPair (jobj L) k v = jobj (L ++ [(k, v)])
  | [], k, v, _ => rfl
  | (k0, v0) :: rest, k, v, h => by
    have hne : ¬ k0 = k := by
      intro he
      exact h (by simp [he])
    have h2 : k ∉ rest.map Prod.fst := by
      intro hm
      exact h (by simp [hm])
    simp only [jobj, assignPair, if_neg hne, List.cons_append]
    rw [assignPair_jobj rest k v h2]
    rfl

theorem foldl_assign : ∀ (ms : List (JSString × JSValue)) (L : List (JSString × JSValue)),
    (∀ k ∈ ms.map Prod.fst, k ∉ L.map Prod.fst) → (ms.map Prod.fst).Nodup →
    List.foldl (fun acc p => assignPair acc p.1 p.2) (jobj L) ms = jobj (L ++ ms)
  | [], L, _, _ => by simp
  | (k, v) :: ms2, L, hfr, hnd => by
    rw [List.foldl_cons]
    have hk : k ∉ L.map Prod.fst := hfr k (by simp)
    rw [assignPair_jobj L k v hk]
    have hnd2 : (ms2.map Prod.fst).Nodup := by
      simp only [List.map_cons, List.nodup_cons] at hnd
      exact hnd.2
    have hfr2 : ∀ k2 ∈ ms2.map Prod.fst, k2 ∉ (L ++ [(k, v)]).map Prod.fst := by
      intro k2 hk2
      rw [List.map_append, List.mem_append]
      rintro (h | h)
      · exact hfr k2 (by simp [hk2]) h
      · simp only [List.map_cons, List.map_nil, List.mem_singleton] at h
        simp only [List.map_cons, List.nodup_cons] at hnd
        rw [h] at hk2
        exact hnd.1 hk2
    rw [foldl_assign ms2 (L ++ [(k, v)]) hfr2 hnd2]
    simp

theorem objFromAssignments_nodup (ms : List (JSString × JSValue))
    (h : (ms.map Prod.fst).Nodup) : objFromAssignments ms = jobj ms := by
  unfold objFromAssignments
  have h2 := foldl_assign ms [] (by simp) h
  simpa [jobj] using h2

theorem find?_norm_map (M : List (JSString × List Nat)) (K : JSString) (t : List Nat)
    (hnorm : ∀ p ∈ M, normalizeNFC p.1 = p.1) (hnd : (M.map Prod.fst).Nodup)
    (hmem : (K, t) ∈ M) :
    (M.map (fun p => ((p.1 : JSString), (Except.ok p.2 : Except CanonError (List Nat))))).find?
      (fun q => normalizeNFC q.1 == K) = some (K, .ok t) := by
  induction M with
  | nil => simp at hmem
  | cons p0 M2 ih =>
    obtain ⟨k0, t0⟩ := p0
    have hnorm0 : normalizeNFC k0 = k0 := hnorm (k0, t0) (by simp)
    simp only [List.map_cons]
    by_cases hk : k0 = K
    · have ht : t0 = t := by
        rcases List.mem_cons.mp hmem with h | h
        · rw [Prod.mk.injEq] at h
          exact h.2.symm
        · exfalso
          simp only [List.map_cons, List.nodup_cons] at hnd
          apply hnd.1
          rw [hk]
          exact List.mem_map_of_mem Prod.fst h
      rw [List.find?_cons_of_pos _ (by rw [hk] at hnorm0; simp [hk, hnorm0])]
      rw [hk, ht]
    · rw [List.find?_cons_of_neg _ (by simp [hnorm0, hk])]
      have hmem2 : (K, t) ∈ M2 := by
        rcases List.mem_cons.mp hmem with h | h
        · exfalso
          rw [Prod.mk.injEq] at h
          exact hk h.1.symm
        · exact h
      exact ih (fun p hp => hnorm p (List.mem_cons_of_mem (k0, t0) hp))
        (by simp only [List.map_cons, List.nodup_cons] at hnd; exact hnd.2) hmem2

theorem mapME_of_find (E : List (JSString × Except CanonError (List Nat))) :
    ∀ ps : List (JSString × List Nat),
    (∀ p ∈ ps, E.find? (fun q => normalizeNFC q.1 == p.1) = some (p.1, .ok p.2)) →
    mapME (fun key => match E.find? (fun p => normalizeNFC p.1 == key) with
      | some p => p.2.map (fun s => canonicalizeString key ++ [0x3A] ++ s)
      | none => .ok (canonicalizeString key ++ [0x3A] ++ cu "null")) (ps.map Prod.fst)
    = .ok (ps.map pairText) := by
  intro ps
  induction ps with
  | nil => intro _; rfl
  | cons p ps2 ih =>
    intro hfind
    simp only [List.map_cons, mapME, hfind p (by simp),
      ih (fun q hq => hfind q (List.mem_cons_of_mem p hq))]
    rfl

theorem mapME_render_inv (E : List (JSString × Except CanonError (List Nat))) :
    ∀ (ks : List JSString) (pairs : List (List Nat)),
    mapME (fun key => match E.find? (fun p => normalizeNFC p.1 == key) with
      | some p => p.2.map (fun s => canonicalizeString key ++ [0x3A] ++ s)
      | none => .ok (canonicalizeString key ++ [0x3A] ++ cu "null")) ks = .ok pairs →
    ∃ M : List (JSString × List Nat), M.map Prod.fst = ks ∧ M.map pairText = pairs ∧
      ∀ p ∈ M, (∃ q ∈ E, q.2 = .ok p.2) ∨ p.2 = cu "null" := by
  intro ks
  induction ks with
  | nil =>
    intro pairs h
    refine ⟨[], rfl, ?_, by simp⟩
    simp only [mapME] at h
    simpa using Except.ok.inj h
  | cons K ks2 ih =>
    intro pairs h
    simp only [mapME] at h
    split at h
    · rename_i b bs hb hbs
      split at hb
      · rename_i q hq
        obtain ⟨s, hs, rfl⟩ := except_map_ok _ _ _ hb
        obtain ⟨M2, hM2a, hM2b, hM2c⟩ := ih bs hbs
        refine ⟨(K, s) :: M2, by simp [hM2a], ?_, ?_⟩
        · simp only [List.map_cons, hM2b, pairText]
          exact Except.ok.inj h
        · intro p hp
          rcases List.mem_cons.mp hp with rfl | hp2
          · exact Or.inl ⟨q, List.mem_of_find?_eq_some hq, hs⟩
          · exact hM2c p hp2
      · cases hb
        obtain ⟨M2, hM2a, hM2b, hM2c⟩ := ih bs hbs
        refine ⟨(K, cu "null") :: M2, by simp [hM2a], ?_, ?_⟩
        · simp only [List.map_cons, hM2b, pairText]
          exact Except.ok.inj h
        · intro p hp
          rcases List.mem_cons.mp hp with rfl | hp2
          · exact Or.inr rfl
          · exact hM2c p hp2
    · rename_i e he
      simp at h
    · rename_i e he
      simp at h

theorem canonicalizeObjectFromEntries_reconstruct (M : List (JSString × List Nat))
    (hnorm : ∀ p ∈ M, normalizeNFC p.1 = p.1)
    (hnd : (M.map Prod.fst).Nodup)
    (hsorted : sortKeys (M.map Prod.fst) = M.map Prod.fst) :
    canonicalizeObjectFromEntries
        (M.map (fun p => ((p.1 : JSString), (Except.ok p.2 : Except CanonError (List Nat)))))
      = .ok ([0x7B] ++ joinComma (M.map pairText) ++ [0x7D]) := by
  unfold canonicalizeObjectFromEntries
  have hkeys : ((M.map (fun p => ((p.1 : JSString),
      (Except.ok p.2 : Except CanonError (List Nat))))).map Prod.fst).map normalizeNFC
      = M.map Prod.fst := by
    rw [List.map_map, List.map_map]
    exact List.map_congr_left (fun p hp => hnorm p hp)
  rw [hkeys, hsorted]
  unfold renderPairs
  rw [mapM_eq_mapME]
  have hfind : ∀ p ∈ M,
      (M.map (fun p => ((p.1 : JSString), (Except.ok p.2 : Except CanonError (List Nat))))).find?
        (fun q => normalizeNFC q.1 == p.1) = some (p.1, .ok p.2) :=
    fun p hp => find?_norm_map M p.1 p.2 hnorm hnd hp
  rw [mapME_of_find (M.map (fun p => ((p.1 : JSString),
    (Except.ok p.2 : Except CanonError (List Nat))))) M hfind]

theorem pairText_shape (p : JSString × List Nat) :
    pairText p = 0x22 :: (escapeAll (normalizeNFC p.1) ++ (0x22 :: (0x3A :: p.2))) := by
  unfold pairText
  rw [canonicalizeString_eq]
  simp

/-! Reduction of the recursive-descent parser on inputs with a known head. -/

theorem goodHead_facts (c : Nat) (h : goodHead c = true) :
    isWs c = false ∧ c ≠ 0x5D ∧ c ≠ 0x7D ∧ c ≠ 0x3A ∧ c ≠ 0x2C := by
  simp only [goodHead, isDigit, Bool.or_eq_true, beq_iff_eq, Bool.and_eq_true,
    decide_eq_true_eq] at h
  refine ⟨?_, ?_⟩
  · simp only [isWs, Bool.or_eq_false_iff, beq_eq_false_iff_ne, ne_eq]
    omega
  · omega

theorem parseValue_succ (fuel : Nat) (s : List Nat) :
    parseValue (fuel + 1) s =
      (match skipWs s with
      | [] => none
      | c :: rest =>
        if c = 0x7B then
          match skipWs rest with
          | 0x7D :: r2 => some (.obj .nil, r2)
          | s2 => (parseMembers fuel s2).map (fun p => (.obj (objFromAssignments p.1), p.2))
        else if c = 0x5B then
          match skipWs rest with
          | 0x5D :: r2 => some (.arr .nil, r2)
          | s2 => (parseElems fuel s2).map (fun p => (.arr p.1, p.2))
        else if c = 0x22 then (parseStringBody rest).map (fun p => (.str p.1, p.2))
        else if c = 0x2D ∨ isDigit c then
          (parseNumber (c :: rest)).map (fun p => (.num p.1, p.2))
        else if c = 0x74 then (dropLit (cu "rue") rest).map (fun r => (.bool true, r))
        else if c = 0x66 then (dropLit (cu "alse") rest).map (fun r => (.bool false, r))
        else if c = 0x6E then (dropLit (cu "ull") rest).map (fun r => (.null, r))
        else none) := rfl

theorem parseValue_string (fuel : Nat) (X : List Nat) :
    parseValue (fuel + 1) (0x22 :: X) = (parseStringBody X).map (fun p => (.str p.1, p.2)) := by
  rw [parseValue.eq_def]
  norm_num [skipWs, isWs, isDigit]

theorem parseValue_true (fuel : Nat) (X : List Nat) :
    parseValue (fuel + 1) (0x74 :: X) = (dropLit (cu "rue") X).map (fun r => (.bool true, r)) := by
  rw [parseValue.eq_def]
  norm_num [skipWs, isWs, isDigit]

theorem parseValue_false (fuel : Nat) (X : List Nat) :
    parseValue (fuel + 1) (0x66 :: X) = (dropLit (cu "alse") X).map (fun r => (.bool false, r)) := by
  rw [parseValue.eq_def]
  norm_num [skipWs, isWs, isDigit]

theorem parseValue_null (fuel : Nat) (X : List Nat) :
    parseValue (fuel + 1) (0x6E :: X) = (dropLit (cu "ull") X).map (fun r => (.null, r)) := by
  rw [parseValue.eq_def]
  norm_num [skipWs, isWs, isDigit]

theorem parseValue_digit (fuel : Nat) (c : Nat) (X : List Nat)
    (hc : c = 0x2D ∨ isDigit c = true) :
    parseValue (fuel + 1) (c :: X) = (parseNumber (c :: X)).map (fun p => (.num p.1, p.2)) := by
  have hb : c = 0x2D ∨ (0x30 ≤ c ∧ c ≤ 0x39) := by
    rcases hc with h | h
    · exact Or.inl h
    · right
      simpa [isDigit] using h
  have hws : isWs c = false := by
    simp only [isWs, Bool.or_eq_false_iff, beq_eq_false_iff_ne, ne_eq]
    omega
  rw [parseValue_succ]
  rw [skipWs_cons_of_not_ws c X hws]
  simp only [if_neg (show ¬ c = 0x7B from by omega), if_neg (show ¬ c = 0x5B from by omega),
    if_neg (show ¬ c = 0x22 from by omega), if_pos hc]

theorem parseValue_arr_empty (fuel : Nat) (Y : List Nat) :
    parseValue (fuel + 1) (0x5B :: 0x5D :: Y) = some (.arr .nil, Y) := by
  rw [parseValue.eq_def]
  norm_num [skipWs, isWs, isDigit]

theorem parseValue_arr_cons (fuel : Nat) (c0 : Nat) (Y : List Nat)
    (hws : isWs c0 = false) (hne : c0 ≠ 0x5D) :
    parseValue (fuel + 1) (0x5B :: (c0 :: Y)) =
      (parseElems fuel (c0 :: Y)).map (fun p => (.arr p.1, p.2)) := by
  rw [parseValue_succ]
  rw [show skipWs (0x5B :: c0 :: Y) = 0x5B :: c0 :: Y from skipWs_cons_of_not_ws _ _ (by decide)]
  norm_num
  rw [skipWs_cons_of_not_ws c0 Y hws]
  split
  · rename_i r2 heq
    rw [List.cons.injEq] at heq
    exact absurd heq.1 hne
  · rfl

theorem parseValue_obj_empty (fuel : Nat) (Y : List Nat) :
    parseValue (fuel + 1) (0x7B :: 0x7D :: Y) = some (.obj .nil, Y) := by
  rw [parseValue.eq_def]
  norm_num [skipWs, isWs, isDigit]

theorem parseValue_obj_cons (fuel : Nat) (c0 : Nat) (Y : List Nat)
    (hws : isWs c0 = false) (hne : c0 ≠ 0x7D) :
    parseValue (fuel + 1) (0x7B :: (c0 :: Y)) =
      (parseMembers fuel (c0 :: Y)).map (fun p => (.obj (objFromAssignments p.1), p.2)) := by
  rw [parseValue_succ]
  rw [show skipWs (0x7B :: c0 :: Y) = 0x7B :: c0 :: Y from skipWs_cons_of_not_ws _ _ (by decide)]
  norm_num
  rw [skipWs_cons_of_not_ws c0 Y hws]
  split
  · rename_i r2 heq
    rw [List.cons.injEq] at heq
    exact absurd heq.1 hne
  · rfl

theorem canonicalizeArrayElems_cons (v2 : JSValue) (rest2 : JSArr) (l : List (List Nat))
    (h : canonicalizeArrayElems (.cons v2 rest2) = .ok l) :
    ∃ t2 es, l = t2 :: es ∧ canonicalizeValue v2 = .ok t2 ∧
      canonicalizeArrayElems rest2 = .ok es := by
  have h2 : (match canonicalizeValue v2, canonicalizeArrayElems rest2 with
    | .ok s, .ok ss => Except.ok (s :: ss)
    | .error e, _ => (Except.error e : Except CanonError (List (List Nat)))
    | _, .error e => Except.error e) = .ok l := h
  cases h1 : canonicalizeValue v2 with
  | error e => rw [h1] at h2; simp at h2
  | ok t2 =>
    cases h3 : canonicalizeArrayElems rest2 with
    | error e => rw [h1, h3] at h2; simp at h2
    | ok es =>
      rw [h1, h3] at h2
      exact ⟨t2, es, (Except.ok.inj h2).symm, rfl, rfl⟩

theorem parseElems_succ (fuel : Nat) (s : List Nat) :
    parseElems (fuel + 1) s =
      (match parseValue fuel s with
      | none => none
      | some (v, r1) =>
        match skipWs r1 with
        | 0x2C :: r2 =>
          match parseElems fuel r2 with
          | some (vs, r3) => some (.cons v vs, r3)
          | none => none
        | 0x5D :: r2 => some (.cons v .nil, r2)
        | _ => none) := rfl

theorem parseMembers_succ (fuel : Nat) (s : List Nat) :
    parseMembers (fuel + 1) s =
      (match skipWs s with
      | 0x22 :: r0 =>
        match parseStringBody r0 with
        | none => none
        | some (k, r1) =>
          match skipWs r1 with
          | 0x3A :: r2 =>
            match parseValue fuel r2 with
            | none => none
            | some (v, r3) =>
              match skipWs r3 with
              | 0x2C :: r4 =>
                match parseMembers fuel r4 with
                | some (ms, r5) => some ((k, v) :: ms, r5)
                | none => none
              | 0x7D :: r4 => some ([(k, v)], r4)
              | _ => none
          | _ => none
      | _ => none) := rfl

theorem joinComma_cons_head (c0 : Nat) (t1b : List Nat) (es : List (List Nat)) :
    ∃ Y, joinComma ((c0 :: t1b) :: es) = c0 :: Y := by
  cases es with
  | nil => exact ⟨t1b, rfl⟩
  | cons e2 es2 =>
    refine ⟨t1b ++ ([0x2C] ++ joinComma (e2 :: es2)), ?_⟩
    show (c0 :: t1b) ++ [0x2C] ++ joinComma (e2 :: es2) = _
    simp

theorem joinComma_map_pairText_head (p1 : JSString × List Nat)
    (M2 : List (JSString × List Nat)) :
    ∃ Y, joinComma ((p1 :: M2).map pairText) = 0x22 :: Y := by
  cases M2 with
  | nil =>
    refine ⟨escapeAll (normalizeNFC p1.1) ++ (0x22 :: (0x3A :: p1.2)), ?_⟩
    show joinComma [pairText p1] = _
    rw [show joinComma [pairText p1] = pairText p1 from rfl, pairText_shape]
  | cons p2 M3 =>
    refine ⟨(escapeAll (normalizeNFC p1.1) ++ (0x22 :: (0x3A :: p1.2))) ++
      ([0x2C] ++ joinComma ((p2 :: M3).map pairText)), ?_⟩
    show joinComma (pairText p1 :: pairText p2 :: M3.map pairText) = _
    rw [show joinComma (pairText p1 :: pairText p2 :: M3.map pairText)
        = pairText p1 ++ [0x2C] ++ joinComma (pairText p2 :: M3.map pairText) from rfl,
      pairText_shape]
    simp

/-! The round trip: a canonical text, fed back through the parser with any
stopper continuation, parses to a value whose canonicalization is that very
text.  The three theorems mirror the parser mutual recursion on fuel. -/

mutual
theorem parseValue_canonical : ∀ (fuel : Nat) (v : JSValue) (ts rest : List Nat),
    goodV v = true → canonicalizeValue v = .ok ts → ts.length < fuel →
    numberStop rest = true →
    ∃ w, parseValue fuel (ts ++ rest) = some (w, rest) ∧ canonicalizeValue w = .ok ts
  | 0, v, ts, rest => fun _ _ hlen _ => absurd hlen (by omega)
  | fuel + 1, v, ts, rest => fun hg hcv hlen hstop => by
    cases v with
    | undef =>
      rw [show canonicalizeValue .undef = Except.ok (cu "null") from rfl] at hcv
      obtain rfl : cu "null" = ts := Except.ok.inj hcv
      refine ⟨.null, ?_, rfl⟩
      rw [show cu "null" ++ rest = 0x6E :: (cu "ull" ++ rest) from rfl,
        parseValue_null fuel _, dropLit_self (cu "ull") rest]
      rfl
    | null =>
      rw [show canonicalizeValue .null = Except.ok (cu "null") from rfl] at hcv
      obtain rfl : cu "null" = ts := Except.ok.inj hcv
      refine ⟨.null, ?_, rfl⟩
      rw [show cu "null" ++ rest = 0x6E :: (cu "ull" ++ rest) from rfl,
        parseValue_null fuel _, dropLit_self (cu "ull") rest]
      rfl
    | bool b =>
      cases b
      · rw [show canonicalizeValue (.bool false) = Except.ok (cu "false") from rfl] at hcv
        obtain rfl : cu "false" = ts := Except.ok.inj hcv
        refine ⟨.bool false, ?_, rfl⟩
        rw [show cu "false" ++ rest = 0x66 :: (cu "alse" ++ rest) from rfl,
          parseValue_false fuel _, dropLit_self (cu "alse") rest]
        rfl
      · rw [show canonicalizeValue (.bool true) = Except.ok (cu "true") from rfl] at hcv
        obtain rfl : cu "true" = ts := Except.ok.inj hcv
        refine ⟨.bool true, ?_, rfl⟩
        rw [show cu "true" ++ rest = 0x74 :: (cu "rue" ++ rest) from rfl,
          parseValue_true fuel _, dropLit_self (cu "rue") rest]
        rfl
    | num n =>
      have hgn : goodNum n = true := by simpa [goodV] using hg
      obtain ⟨n2, hpn, hcn2⟩ := parseNumber_canonical n ts rest hgn hcv hstop
      obtain ⟨c, ts2, hts, hcr⟩ := canonicalizeNumber_head n ts hcv
      have hc : c = 0x2D ∨ isDigit c = true := by
        rcases hcr with h | h
        · exact Or.inl h
        · right
          simp only [isDigit, Bool.and_eq_true, decide_eq_true_eq]
          omega
      refine ⟨.num n2, ?_, hcn2⟩
      rw [hts, List.cons_append, parseValue_digit fuel c (ts2 ++ rest) hc,
        ← List.cons_append, ← hts, hpn]
      rfl
    | str s =>
      cases hcv
      refine ⟨.str (normalizeNFC s), ?_, ?_⟩
      · rw [show canonicalizeString s ++ rest
            = 0x22 :: (escapeAll (normalizeNFC s) ++ (0x22 :: rest)) from by
          rw [canonicalizeString_eq]
          simp]
        rw [parseValue_string fuel _, parseStringBody_escape (normalizeNFC s) rest]
        rfl
      · show Except.ok (canonicalizeString (normalizeNFC s)) = .ok (canonicalizeString s)
        rw [canonicalizeString_eq, canonicalizeString_eq, normalizeNFC_idem]
    | arr xs =>
      have hga : goodA xs = true := by simpa [goodV] using hg
      have h2 : (match canonicalizeArrayElems xs with
        | .ok elems => Except.ok ([0x5B] ++ joinComma elems ++ [0x5D])
        | .error e => (Except.error e : Except CanonError (List Nat))) = .ok ts := hcv
      split at h2
      · rename_i elems heq
        cases h2
        cases xs with
        | nil =>
          have helems : elems = [] := by
            rw [show canonicalizeArrayElems .nil = Except.ok ([] : List (List Nat)) from rfl]
              at heq
            exact (Except.ok.inj heq).symm
          subst helems
          refine ⟨.arr .nil, ?_, rfl⟩
          rw [show ([0x5B] ++ joinComma [] ++ [0x5D]) ++ rest = 0x5B :: 0x5D :: rest from rfl]
          exact parseValue_arr_empty fuel rest
        | cons v1 rest1 =>
          obtain ⟨t1, es, rfl, hcv1, hcr1⟩ := canonicalizeArrayElems_cons v1 rest1 elems heq
          obtain ⟨c0, t1b, ht1, hgh⟩ := canonicalizeValue_head v1 t1 hcv1
          obtain ⟨hws0, hne5D, hne7D, hne3A, hne2C⟩ := goodHead_facts c0 hgh
          have hfuel : (joinComma (t1 :: es)).length + 1 < fuel := by
            simp only [List.length_append, List.length_cons, List.length_nil] at hlen
            omega
          obtain ⟨ys, hpe, hcys⟩ :=
            parseElems_canonical fuel v1 rest1 (t1 :: es) rest hga heq hfuel
          obtain ⟨Y, hYeq⟩ := joinComma_cons_head c0 t1b es
          have hY2 : joinComma (t1 :: es) = c0 :: Y := by
            rw [ht1]
            exact hYeq
          refine ⟨.arr ys, ?_, ?_⟩
          · rw [show ([0x5B] ++ joinComma (t1 :: es) ++ [0x5D]) ++ rest
                = 0x5B :: (joinComma (t1 :: es) ++ (0x5D :: rest)) from by simp]
            rw [hY2, List.cons_append,
              parseValue_arr_cons fuel c0 (Y ++ 0x5D :: rest) hws0 hne5D,
              ← List.cons_append, ← hY2, hpe]
            rfl
          · have hcv3 : canonicalizeValue (.arr ys) = (match canonicalizeArrayElems ys with
              | .ok elems2 => Except.ok ([0x5B] ++ joinComma elems2 ++ [0x5D])
              | .error e => (Except.error e : Except CanonError (List Nat))) := rfl
            rw [hcv3, hcys]
      · simp at h2
    | obj o =>
      have hgO : goodO o = true ∧
          nodupKeys ((JSObj.toList o).map (fun p => normalizeNFC p.1)) = true := by
        simpa [goodV, Bool.and_eq_true] using hg
      have h2 : canonicalizeObjectFromEntries (canonicalizeObjEntries o) = .ok ts := hcv
      unfold canonicalizeObjectFromEntries renderPairs at h2
      rw [mapM_eq_mapME] at h2
      split at h2
      · rename_i pairs heq
        cases h2
        obtain ⟨M, hMks, hMpairs, hMprop⟩ := mapME_render_inv _ _ _ heq
        have hkseq : ((canonicalizeObjEntries o).map Prod.fst).map normalizeNFC
            = (JSObj.toList o).map (fun p => normalizeNFC p.1) := by
          rw [canonicalizeObjEntries_eq, List.map_map, List.map_map]
          rfl
        have hndM : (M.map Prod.fst).Nodup := by
          rw [hMks]
          exact ((sortKeys_perm _).nodup_iff).mpr (by
            rw [hkseq]
            exact (nodupKeys_iff _).mp hgO.2)
        have hnormM : ∀ p ∈ M, normalizeNFC p.1 = p.1 := by
          intro p hp
          have hpk : p.1 ∈ sortKeys (((canonicalizeObjEntries o).map Prod.fst).map normalizeNFC) := by
            rw [← hMks]
            exact List.mem_map_of_mem Prod.fst hp
          have hpk2 : p.1 ∈ ((canonicalizeObjEntries o).map Prod.fst).map normalizeNFC :=
            (sortKeys_perm _).mem_iff.mp hpk
          obtain ⟨x, hx, hxe⟩ := List.mem_map.mp hpk2
          rw [← hxe]
          exact normalizeNFC_idem x
        have hsortM : sortKeys (M.map Prod.fst) = M.map Prod.fst := by
          rw [hMks]
          exact sortKeys_of_sorted _ (sortKeys_sorted _)
        have hvals : ∀ p ∈ M, ∃ v2, goodV v2 = true ∧ canonicalizeValue v2 = .ok p.2 := by
          intro p hp
          rcases hMprop p hp with ⟨q, hq, hq2⟩ | hnull
          · rw [canonicalizeObjEntries_eq] at hq
            obtain ⟨kv, hkv, rfl⟩ := List.mem_map.mp hq
            exact ⟨kv.2, (goodO_parts o hgO.1 kv hkv).2, hq2⟩
          · exact ⟨.null, rfl, by rw [hnull]; rfl⟩
        cases hM : M with
        | nil =>
          rw [hM] at hMpairs
          have hp2 : pairs = [] := by simpa using hMpairs.symm
          subst hp2
          refine ⟨.obj .nil, ?_, ?_⟩
          · rw [show ([0x7B] ++ joinComma [] ++ [0x7D]) ++ rest = 0x7B :: 0x7D :: rest from rfl]
            exact parseValue_obj_empty fuel rest
          · rfl
        | cons p1 M2 =>
          rw [hM] at hMpairs hnormM hvals hndM hsortM
          subst hMpairs
          have hfuelM : (joinComma ((p1 :: M2).map pairText)).length + 1 < fuel := by
            simp only [List.length_append, List.length_cons, List.length_nil] at hlen
            omega
          obtain ⟨ms, hpm, hkeys2, hmsmap⟩ := parseMembers_canonical fuel p1 M2 rest
            (fun p hp => ⟨hnormM p hp, hvals p hp⟩) hfuelM
          have hndms : (ms.map Prod.fst).Nodup := by
            rw [hkeys2]
            exact hndM
          have hofa : objFromAssignments ms = jobj ms := objFromAssignments_nodup ms hndms
          have hE2 : canonicalizeObjEntries (jobj ms)
              = (p1 :: M2).map (fun p => ((p.1 : JSString),
                (Except.ok p.2 : Except CanonError (List Nat)))) := by
            rw [canonicalizeObjEntries_eq, jobj_toList]
            exact hmsmap
          refine ⟨.obj (objFromAssignments ms), ?_, ?_⟩
          · rw [show ([0x7B] ++ joinComma ((p1 :: M2).map pairText) ++ [0x7D]) ++ rest
                = 0x7B :: (joinComma ((p1 :: M2).map pairText) ++ (0x7D :: rest)) from by simp]
            obtain ⟨Y, hY⟩ := joinComma_map_pairText_head p1 M2
            rw [hY, List.cons_append,
              parseValue_obj_cons fuel 0x22 (Y ++ 0x7D :: rest) (by decide) (by decide),
              ← List.cons_append, ← hY, hpm]
            rfl
          · rw [hofa]
            have hcv2 : canonicalizeValue (.obj (jobj ms))
                = canonicalizeObjectFromEntries (canonicalizeObjEntries (jobj ms)) := rfl
            rw [hcv2, hE2,
              canonicalizeObjectFromEntries_reconstruct (p1 :: M2) hnormM hndM hsortM]
      · simp at h2
    | fn => simp [goodV] at hg
    | sym => simp [goodV] at hg

theorem parseElems_canonical : ∀ (fuel : Nat) (v1 : JSValue) (rest1 : JSArr)
    (elems : List (List Nat)) (rest : List Nat),
    goodA (.cons v1 rest1) = true →
    canonicalizeArrayElems (.cons v1 rest1) = .ok elems →
    (joinComma elems).length + 1 < fuel →
    ∃ ys, parseElems fuel (joinComma elems ++ (0x5D :: rest)) = some (ys, rest) ∧
      canonicalizeArrayElems ys = .ok elems
  | 0, v1, rest1, elems, rest => fun _ _ hlen => absurd hlen (by omega)
  | fuel + 1, v1, rest1, elems, rest => fun hga heq hlen => by
    obtain ⟨hgv1, hgr1⟩ : goodV v1 = true ∧ goodA rest1 = true := by
      simpa [goodA, Bool.and_eq_true] using hga
    obtain ⟨t1, es, rfl, hcv1, hcr1⟩ := canonicalizeArrayElems_cons v1 rest1 elems heq
    cases rest1 with
    | nil =>
      have hes : es = [] := by
        rw [show canonicalizeArrayElems .nil = Except.ok ([] : List (List Nat)) from rfl] at hcr1
        exact (Except.ok.inj hcr1).symm
      subst hes
      have hJ : joinComma [t1] = t1 := rfl
      obtain ⟨w1, hpv1, hcw1⟩ := parseValue_canonical fuel v1 t1 (0x5D :: rest) hgv1 hcv1
        (by rw [hJ] at hlen; omega) rfl
      refine ⟨.cons w1 .nil, ?_, ?_⟩
      · rw [hJ, parseElems_succ, hpv1]
        norm_num [skipWs, isWs]
      · simp only [canonicalizeArrayElems, hcw1]
    | cons v2 rest2 =>
      obtain ⟨t2, es2, rfl, hcv2x, hcr2x⟩ := canonicalizeArrayElems_cons v2 rest2 es hcr1
      have hJ : joinComma (t1 :: t2 :: es2) = t1 ++ ([0x2C] ++ joinComma (t2 :: es2)) := by
        show t1 ++ [0x2C] ++ joinComma (t2 :: es2) = _
        simp
      obtain ⟨w1, hpv1, hcw1⟩ := parseValue_canonical fuel v1 t1
        (0x2C :: (joinComma (t2 :: es2) ++ (0x5D :: rest))) hgv1 hcv1
        (by
          rw [hJ] at hlen
          simp only [List.length_append, List.length_cons, List.length_nil] at hlen
          omega) rfl
      have hlen3 : (joinComma (t2 :: es2)).length + 1 < fuel := by
        rw [hJ] at hlen
        simp only [List.length_append, List.length_cons, List.length_nil] at hlen
        have ht1 : 1 ≤ t1.length := by
          obtain ⟨c0, t1b, ht1e, hgh⟩ := canonicalizeValue_head v1 t1 hcv1
          rw [ht1e]
          simp
        omega
      obtain ⟨ys2, hpe2, hcys2⟩ :=
        parseElems_canonical fuel v2 rest2 (t2 :: es2) rest hgr1 hcr1 hlen3
      refine ⟨.cons w1 ys2, ?_, ?_⟩
      · rw [show joinComma (t1 :: t2 :: es2) ++ (0x5D :: rest)
            = t1 ++ (0x2C :: (joinComma (t2 :: es2) ++ (0x5D :: rest))) from by
          rw [hJ]
          simp]
        rw [parseElems_succ, hpv1]
        norm_num [skipWs, isWs]
        simp only [hpe2]
      · simp only [canonicalizeArrayElems, hcw1, hcys2]

theorem parseMembers_canonical : ∀ (fuel : Nat) (p1 : JSString × List Nat)
    (M2 : List (JSString × List Nat)) (rest : List Nat),
    (∀ p ∈ p1 :: M2, normalizeNFC p.1 = p.1 ∧
      ∃ v2, goodV v2 = true ∧ canonicalizeValue v2 = .ok p.2) →
    (joinComma ((p1 :: M2).map pairText)).length + 1 < fuel →
    ∃ ms, parseMembers fuel (joinComma ((p1 :: M2).map pairText) ++ (0x7D :: rest))
        = some (ms, rest) ∧
      ms.map Prod.fst = (p1 :: M2).map Prod.fst ∧
      ms.map (fun m => (m.1, canonicalizeValue m.2))
        = (p1 :: M2).map (fun p => ((p.1 : JSString),
            (Except.ok p.2 : Except CanonError (List Nat))))
  | 0, p1, M2, rest => fun _ hlen => absurd hlen (by omega)
  | fuel + 1, p1, M2, rest => fun hprop hlen => by
    obtain ⟨hn1, v1, hgv1, hcv1⟩ := hprop p1 (by simp)
    cases M2 with
    | nil =>
      have hJ : joinComma ([p1].map pairText) = pairText p1 := rfl
      obtain ⟨w1, hpv1, hcw1⟩ := parseValue_canonical fuel v1 p1.2 (0x7D :: rest) hgv1 hcv1
        (by
          rw [hJ, pairText_shape] at hlen
          simp only [List.length_cons, List.length_append] at hlen
          omega) rfl
      refine ⟨[(p1.1, w1)], ?_, by simp, by simp [hcw1]⟩
      rw [hJ, pairText_shape, hn1,
        show (0x22 :: (escapeAll p1.1 ++ (0x22 :: (0x3A :: p1.2)))) ++ (0x7D :: rest)
          = 0x22 :: (escapeAll p1.1 ++ (0x22 :: (0x3A :: (p1.2 ++ (0x7D :: rest))))) from by
            simp]
      rw [parseMembers_succ, skipWs_cons_of_not_ws 0x22 _ (by decide)]
      norm_num [skipWs, isWs, parseStringBody_escape, hpv1]
    | cons p2 M3 =>
      have hJ : joinComma ((p1 :: p2 :: M3).map pairText)
          = pairText p1 ++ [0x2C] ++ joinComma ((p2 :: M3).map pairText) := rfl
      obtain ⟨w1, hpv1, hcw1⟩ := parseValue_canonical fuel v1 p1.2
        (0x2C :: (joinComma ((p2 :: M3).map pairText) ++ (0x7D :: rest))) hgv1 hcv1
        (by
          rw [hJ, pairText_shape] at hlen
          simp only [List.length_append, List.length_cons, List.length_nil] at hlen
          omega) rfl
      obtain ⟨ms2, hpm2, hkeys2, hmap2⟩ := parseMembers_canonical fuel p2 M3 rest
        (fun p hp => hprop p (List.mem_cons_of_mem p1 hp))
        (by
          rw [hJ, pairText_shape] at hlen
          simp only [List.length_append, List.length_cons, List.length_nil] at hlen
          omega)
      refine ⟨(p1.1, w1) :: ms2, ?_, by simp [hkeys2], by simp [hcw1, hmap2]⟩
      rw [hJ, pairText_shape, hn1,
        show (0x22 :: (escapeAll p1.1 ++ (0x22 :: (0x3A :: p1.2)))) ++ [0x2C] ++
            joinComma ((p2 :: M3).map pairText) ++ (0x7D :: rest)
          = 0x22 :: (escapeAll p1.1 ++ (0x22 :: (0x3A :: (p1.2 ++ (0x2C ::
              (joinComma ((p2 :: M3).map pairText) ++ (0x7D :: rest))))))) from by
            simp]
      rw [parseMembers_succ, skipWs_cons_of_not_ws 0x22 _ (by decide)]
      simp only [List.map_cons] at hpv1 hpm2
      norm_num [skipWs, isWs, parseStringBody_escape, hpv1]
      rw [hpm2]
end

/-- C1 (amended): on Value-Model-conformant inputs whose object keys have
pairwise distinct NFC normalizations, the codec is idempotent — re-encoding
canonical bytes through `canonicalizeBytes` returns them unchanged. -/
theorem claim_C1_amended : ∀ (v : JSValue) (bs : List Nat),
    goodV v = true → canonicalize v = .ok bs → canonicalizeBytes bs = .ok bs := by
  intro v bs hg hc
  have hc2 : Except.map utf8Encode (canonicalizeToString v) = .ok bs := hc
  obtain ⟨ts, hcv, rfl⟩ := except_map_ok utf8Encode (canonicalizeToString v) bs hc2
  have hwf : wfUnits ts = true := wfV v ts hg hcv
  obtain ⟨w, hpw, hcw⟩ := parseValue_canonical (ts.length + 1) v ts [] hg hcv (by omega) rfl
  rw [List.append_nil] at hpw
  have hjp : jsonParse ts = .ok w := by
    unfold jsonParse
    rw [hpw]
    rfl
  have hcb : canonicalizeBytes (utf8Encode ts) = canonicalize w := by
    unfold canonicalizeBytes
    rw [utf8Decode_encode ts hwf, hjp]
  rw [hcb]
  unfold canonicalize canonicalizeToString
  rw [hcw]
  rfl

/-- C1 counterexample: with two distinct original keys that agree under NFC
(U+00E9 and U+0065 U+0301), canonicalize succeeds but its output is not a
fixed point of `canonicalizeBytes` — the duplicate emitted key collapses on
reparse, so the claim fails without the distinct-normalization restriction. -/
theorem claim_C1_counterexample :
    (canonicalize (.obj (jobj [([0xE9], .num .zero), ([0x65, 0x301], .bool true)]))).isOk
      = true ∧
    Except.bind (canonicalize (.obj (jobj [([0xE9], .num .zero), ([0x65, 0x301], .bool true)])))
      canonicalizeBytes
      ≠ canonicalize (.obj (jobj [([0xE9], .num .zero), ([0x65, 0x301], .bool true)])) := by
  constructor
  · decide
  · decide

/-- Witness for C1 at a two-key object holding a fractional number and a
boolean. -/
theorem claim_C1_witness :
    goodV (.obj (jobj [(cu "b", .bool true), (cu "a", .num (.finite true 25 (-1)))])) = true ∧
    canonicalizeBytes (cu "\x7b\"a\":-2.5,\"b\":true\x7d")
      = .ok (cu "\x7b\"a\":-2.5,\"b\":true\x7d") :=
  ⟨by decide,
    claim_C1_amended (.obj (jobj [(cu "b", .bool true), (cu "a", .num (.finite true 25 (-1)))]))
      (cu "\x7b\"a\":-2.5,\"b\":true\x7d") (by decide) (by decide)⟩
